import Mathlib

/-!
Verification development for the NASA `harmony-netcdf-to-zarr` service.

This file gives a shallow embedding, in Lean 4, of the core operations of the
service and proves (or refutes) the frozen specification claims about them.

Embedding conventions:

* Machine floats are modelled by exact arithmetic (`Int` / `Rat`); where the
  Python source performs floating-point operations whose exactness matters
  (for example `numpy.gcd` after `scale_to_integers`), the model works with
  the exact values the source's own documentation assumes.
* Fallible Python code (functions that `raise`) is modelled with `Except` or
  with explicit outcome types.
* Stateful behaviour (the shared mutable default-argument dictionary of
  `_chunk_shapes`, the event order of `rechunk_zarr`) is modelled by explicit
  state passing and event traces.
* Every definition is executable, so concrete witnesses evaluate by
  `decide` / `rfl`.
-/

namespace NetCDFToZarr

attribute [local semireducible] Rat.add Rat.sub Rat.mul Rat.inv

/-! ## Generic helpers: list minimum and maximum

Models of the numpy reductions `ndarray.min()` / `ndarray.max()` used
throughout `mosaic_utilities.py` and of Python `min` over a non-empty list.
-/

/-- Minimum of a list, `default` on the empty list (numpy raises there; every
use in the source is on a non-empty array). -/
def listMin {α : Type} [LinearOrder α] [Inhabited α] : List α → α
  | [] => default
  | x :: xs => xs.foldl min x

/-- Maximum of a list, `default` on the empty list. -/
def listMax {α : Type} [LinearOrder α] [Inhabited α] : List α → α
  | [] => default
  | x :: xs => xs.foldl max x

theorem foldl_min_le_init {α : Type} [LinearOrder α] (l : List α) (a : α) :
    l.foldl min a ≤ a := by
  induction l generalizing a with
  | nil => simp
  | cons x xs ih =>
    simpa using le_trans (ih (min a x)) (min_le_left a x)

theorem foldl_min_le_mem {α : Type} [LinearOrder α] (l : List α) (a x : α)
    (hx : x ∈ l) : l.foldl min a ≤ x := by
  induction l generalizing a with
  | nil => cases hx
  | cons y ys ih =>
    rcases List.mem_cons.mp hx with rfl | hmem
    · exact le_trans (foldl_min_le_init ys (min a x)) (min_le_right a x)
    · exact ih (min a y) hmem

theorem foldl_min_mem {α : Type} [LinearOrder α] (l : List α) (a : α) :
    l.foldl min a = a ∨ l.foldl min a ∈ l := by
  induction l generalizing a with
  | nil => exact Or.inl rfl
  | cons x xs ih =>
    rcases ih (min a x) with h | h
    · rcases min_choice a x with hc | hc
      · exact Or.inl (by rw [List.foldl_cons, h, hc])
      · exact Or.inr (by rw [List.foldl_cons, h, hc]; exact List.mem_cons_self x xs)
    · exact Or.inr (List.mem_cons_of_mem x h)

theorem listMin_mem {α : Type} [LinearOrder α] [Inhabited α] (l : List α)
    (hl : l ≠ []) : listMin l ∈ l := by
  cases l with
  | nil => exact absurd rfl hl
  | cons x xs =>
    rcases foldl_min_mem xs x with h | h
    · rw [listMin, h]; exact List.mem_cons_self x xs
    · exact List.mem_cons_of_mem x h

theorem listMin_le {α : Type} [LinearOrder α] [Inhabited α] (l : List α)
    (x : α) (hx : x ∈ l) : listMin l ≤ x := by
  cases l with
  | nil => cases hx
  | cons y ys =>
    rcases List.mem_cons.mp hx with rfl | hmem
    · exact foldl_min_le_init ys x
    · exact foldl_min_le_mem ys y x hmem

theorem foldl_max_init_le {α : Type} [LinearOrder α] (l : List α) (a : α) :
    a ≤ l.foldl max a := by
  induction l generalizing a with
  | nil => simp
  | cons x xs ih =>
    simpa using le_trans (le_max_left a x) (ih (max a x))

theorem foldl_max_mem_le {α : Type} [LinearOrder α] (l : List α) (a x : α)
    (hx : x ∈ l) : x ≤ l.foldl max a := by
  induction l generalizing a with
  | nil => cases hx
  | cons y ys ih =>
    rcases List.mem_cons.mp hx with rfl | hmem
    · exact le_trans (le_max_right a x) (foldl_max_init_le ys (max a x))
    · exact ih (max a y) hmem

theorem foldl_max_mem {α : Type} [LinearOrder α] (l : List α) (a : α) :
    l.foldl max a = a ∨ l.foldl max a ∈ l := by
  induction l generalizing a with
  | nil => exact Or.inl rfl
  | cons x xs ih =>
    rcases ih (max a x) with h | h
    · rcases max_choice a x with hc | hc
      · exact Or.inl (by rw [List.foldl_cons, h, hc])
      · exact Or.inr (by rw [List.foldl_cons, h, hc]; exact List.mem_cons_self x xs)
    · exact Or.inr (List.mem_cons_of_mem x h)

theorem listMax_mem {α : Type} [LinearOrder α] [Inhabited α] (l : List α)
    (hl : l ≠ []) : listMax l ∈ l := by
  cases l with
  | nil => exact absurd rfl hl
  | cons x xs =>
    rcases foldl_max_mem xs x with h | h
    · rw [listMax, h]; exact List.mem_cons_self x xs
    · exact List.mem_cons_of_mem x h

theorem le_listMax {α : Type} [LinearOrder α] [Inhabited α] (l : List α)
    (x : α) (hx : x ∈ l) : x ≤ listMax l := by
  cases l with
  | nil => cases hx
  | cons y ys =>
    rcases List.mem_cons.mp hx with rfl | hmem
    · exact foldl_max_init_le ys x
    · exact foldl_max_mem_le ys y x hmem

/-! ## Worker-pool supervisor (`process_utilities.monitor_processes`)

The source polls `is_alive` on every worker, records exit codes, joins all
workers, and — when any recorded exit code is non-zero — raises a single
generic `RuntimeError` built from the notice string and the exit-code list.
It receives the shared namespace (which carries the `exception` attribute set
by a worker that caught an exception) but never reads that attribute.
-/

/-- Possible outcomes of the supervisor after all workers have been joined.
The source has no code path that surfaces the worker-recorded exception
message, so the model has no worker-exception outcome: the only failure the
source can raise is the generic `RuntimeError` carrying the exit codes. -/
inductive SupervisorOutcome where
  | ok : SupervisorOutcome
  | crashError : List Int → SupervisorOutcome
deriving DecidableEq

/-- Model of `process_utilities.monitor_processes`. `exitCodes` holds the
final exit code of each worker (all workers have terminated when the poll
loop exits, so every code is an integer); `exceptionMessage` is the value of
the shared-namespace `exception` attribute, passed in because the source
function receives `shared_namespace` — the source never reads it, and the
model correspondingly ignores it. -/
def monitor_processes (exitCodes : List Int)
    (exceptionMessage : Option String) : SupervisorOutcome :=
  if exitCodes.all (fun code => code = 0) then SupervisorOutcome.ok
  else SupervisorOutcome.crashError exitCodes

/-- C1: the claim says that when a worker recorded an exception message the
supervisor fails with the `WorkerException` kind carrying that message.  The
code contradicts this (and contradicts its own unit test
`test_download_granules_failure`, which expects the recorded message to
surface): `monitor_processes` never reads the shared `exception` attribute,
so a run in which a worker set the exception signal and exited with code 1
surfaces the generic exit-code error, and the outcome is independent of the
recorded message. -/
theorem monitor_processes_exception_not_surfaced :
    monitor_processes [1, 0] (some "Unable to download a url of unknown type")
      = SupervisorOutcome.crashError [1, 0]
    ∧ ∀ (codes : List Int) (msg : Option String),
        monitor_processes codes msg = monitor_processes codes none := by
  exact ⟨rfl, fun codes msg => rfl⟩

/-! ## Attribute copying (`convert.__copy_attrs`)

The source builds a dictionary of the input attributes, overlays the keyword
arguments (keyword arguments win over input attributes), removes every key
already present on the destination, and updates the destination with the
remainder — so pre-existing destination attributes always win.
-/

/-- A dictionary of attributes, modelled by its lookup function (`none` means
the key is absent). -/
def AttrMap (V : Type) := String → Option V

/-- Model of `convert.__copy_attrs`: the resulting attribute lookup on the
destination Zarr group or array.  A key keeps its pre-existing destination
value; otherwise it takes the keyword-argument value; otherwise the input
value. -/
def copy_attrs {V : Type} (zarr_output netcdf_input kwargs : AttrMap V) :
    AttrMap V :=
  fun key =>
    match zarr_output key with
    | some v => some v
    | none =>
      match kwargs key with
      | some v => some v
      | none => netcdf_input key

/-- C7: the attribute-copy operation never changes an attribute already
present on the destination (pre-existing attributes win over input attributes
and keyword-supplied attributes), and copying the same source attributes to
the same destination twice equals copying them once. -/
theorem copy_attrs_existing_wins_and_idempotent :
    (∀ (V : Type) (dest src kwargs : AttrMap V) (key : String) (v : V),
        dest key = some v → copy_attrs dest src kwargs key = some v)
    ∧ ∀ (V : Type) (dest src kwargs : AttrMap V),
        copy_attrs (copy_attrs dest src kwargs) src kwargs
          = copy_attrs dest src kwargs := by
  constructor
  · intro V dest src kwargs key v h
    simp [copy_attrs, h]
  · intro V dest src kwargs
    funext key
    simp only [copy_attrs]
    cases hdest : dest key with
    | some v => rfl
    | none =>
      cases hkw : kwargs key with
      | some v => rfl
      | none =>
        cases hsrc : src key with
        | some v => rfl
        | none => simp [hkw, hsrc]

/-- Witness for C7: concrete attribute maps where the destination already has
the key `units`; the copy keeps the destination value. -/
theorem copy_attrs_existing_wins_witness :
    copy_attrs (fun k => if k = "units" then some "m" else none)
      (fun k => if k = "units" then some "s" else none)
      (fun _ => none) "units" = some "m" :=
  copy_attrs_existing_wins_and_idempotent.1 String
    (fun k => if k = "units" then some "m" else none)
    (fun k => if k = "units" then some "s" else none)
    (fun _ => none) "units" "m" (by decide)

/-! ## Rechunk pass (`rechunk.rechunk_zarr` / `rechunk.rechunk_zarr_store`)

`rechunk_zarr` first clears any leftover temporary and target prefixes
(catching `FileNotFoundError`), then runs `rechunk_zarr_store` — which builds
the rechunk plan, executes it and consolidates metadata on the target — and
only afterwards removes the source prefix and the temporary prefix.  There is
no `try`/`except` around `rechunk_zarr_store`, so any error there propagates
to the caller before either post-success removal is reached.  The model
records the store-removal and rechunk steps as an event trace, parameterised
by an optional failure point inside `rechunk_zarr_store`.
-/

/-- Observable steps of the rechunk pass. `rmTemp`/`rmTarget`/`rmSource` are
the `s3.rm` calls on the temporary, target and source prefixes;
`planExecuted` is the completed `array_plan.execute()`; `consolidated` is the
completed `consolidate_metadata` on the target. -/
inductive RechunkEvent where
  | rmTemp : RechunkEvent
  | rmTarget : RechunkEvent
  | planExecuted : RechunkEvent
  | consolidated : RechunkEvent
  | rmSource : RechunkEvent
deriving DecidableEq

/-- Where an error can be raised inside `rechunk_zarr_store`: while building
or executing the rechunk plan, or while consolidating target metadata. -/
inductive RechunkFailPoint where
  | executing : RechunkFailPoint
  | consolidating : RechunkFailPoint
deriving DecidableEq

/-- Model of `rechunk.rechunk_zarr_store`: the events it completes and whether
it raises.  A failure while building/executing the plan completes nothing; a
failure while consolidating completes the plan execution only. -/
def rechunk_zarr_store (failPoint : Option RechunkFailPoint) :
    List RechunkEvent × Bool :=
  match failPoint with
  | some RechunkFailPoint.executing => ([], true)
  | some RechunkFailPoint.consolidating => ([RechunkEvent.planExecuted], true)
  | none => ([RechunkEvent.planExecuted, RechunkEvent.consolidated], false)

/-- Model of `rechunk.rechunk_zarr`: pre-clean the temporary and target
prefixes, run `rechunk_zarr_store`, and on success (only) remove the source
prefix and then the temporary prefix.  The boolean is `true` when an error
propagates to the caller. -/
def rechunk_zarr (failPoint : Option RechunkFailPoint) :
    List RechunkEvent × Bool :=
  let pre := [RechunkEvent.rmTemp, RechunkEvent.rmTarget]
  let storeResult := rechunk_zarr_store failPoint
  if storeResult.2 then (pre ++ storeResult.1, true)
  else (pre ++ storeResult.1 ++ [RechunkEvent.rmSource, RechunkEvent.rmTemp],
        false)

/-- C9 counterexample: the claim states that the removal of the temporary
store happens only after the rechunk plan has executed and metadata has been
consolidated successfully, but `rechunk_zarr` clears the temporary prefix
before rechunking begins: in the run whose plan execution fails, the error
propagates, yet the trace already contains a removal of the temporary prefix
and no completed plan execution. -/
theorem rechunk_temp_removed_before_plan :
    (rechunk_zarr (some RechunkFailPoint.executing)).2 = true
    ∧ RechunkEvent.rmTemp ∈ (rechunk_zarr (some RechunkFailPoint.executing)).1
    ∧ RechunkEvent.planExecuted
        ∉ (rechunk_zarr (some RechunkFailPoint.executing)).1 := by
  decide

/-- C9 (amended): any error raised during the rechunk pass propagates to the
caller and the source store is not deleted — the source prefix is removed
exactly in the successful run, after plan execution and metadata
consolidation; the temporary prefix, however, is additionally cleared before
rechunking begins, as the successful trace shows. -/
theorem rechunk_source_removed_only_on_success :
    (∀ failPoint : Option RechunkFailPoint,
        ((rechunk_zarr failPoint).2 = true ↔ failPoint ≠ none)
        ∧ (RechunkEvent.rmSource ∈ (rechunk_zarr failPoint).1
            ↔ failPoint = none))
    ∧ (rechunk_zarr none).1
        = [RechunkEvent.rmTemp, RechunkEvent.rmTarget,
           RechunkEvent.planExecuted, RechunkEvent.consolidated,
           RechunkEvent.rmSource, RechunkEvent.rmTemp] := by
  constructor
  · intro failPoint
    rcases failPoint with _ | fp
    · exact ⟨by decide, by decide⟩
    · cases fp <;> exact ⟨by decide, by decide⟩
  · rfl

/-- Witness for C9 (amended): at the concrete failure point `executing`, the
error propagates and the source prefix is not removed. -/
theorem rechunk_source_removed_witness :
    (rechunk_zarr (some RechunkFailPoint.executing)).2 = true
    ∧ RechunkEvent.rmSource
        ∉ (rechunk_zarr (some RechunkFailPoint.executing)).1 :=
  ⟨(rechunk_source_removed_only_on_success.1
      (some RechunkFailPoint.executing)).1.mpr (by decide),
   fun hmem =>
     Option.some_ne_none RechunkFailPoint.executing
       ((rechunk_source_removed_only_on_success.1
          (some RechunkFailPoint.executing)).2.mp hmem)⟩

/-! ## Chunk-size planner (`convert.compute_chunksize`)

The planner first converts a string-valued compressed chunk size to bytes by
matching the regular expression `^\s*([\d.]+)\s*(Ki|Mi|Gi)\s*$` (raising the
`InvalidChunkSpec` `ValueError` when the string does not match) and applying
`int(float(value)) * binary_prefix_conversion_map[unit]` — note that
`float(value)` itself raises an uncaught `ValueError` when the matched token
is not a valid float literal, e.g. `"."` or `"1.2.3"`.  It then rejects
`compression_ratio < 1`, computes the uncompressed element budget, and
equalises chunk sides over the not-yet-fixed axes, clamping any axis whose
extent is smaller than the candidate side.  Numbers are modelled exactly
(`Nat`/`Rat`); `int(pow(r, 1/k))` is modelled by the exact integer k-th root
(the float `pow` can differ by one at perfect powers, which none of the
proved properties depend on).
-/

/-- Python `\s` on the characters the source can meet (ASCII whitespace). -/
def isPySpace (c : Char) : Bool :=
  c == ' ' || c == '\t' || c == '\n' || c == '\r' || c == '\x0b' || c == '\x0c'

/-- Characters matched by the `[\d.]` class of the chunk-size pattern
(ASCII digits and the dot). -/
def isDigitDot (c : Char) : Bool :=
  c.isDigit || c == '.'

/-- Binary-prefix units accepted by the chunk-size pattern. -/
inductive BinaryUnit where
  | Ki : BinaryUnit
  | Mi : BinaryUnit
  | Gi : BinaryUnit
deriving DecidableEq

/-- Model of `convert.binary_prefix_conversion_map`. -/
def binary_prefix_conversion_map : BinaryUnit → ℕ
  | BinaryUnit.Ki => 1024
  | BinaryUnit.Mi => 1048576
  | BinaryUnit.Gi => 1073741824

/-- Model of `re.findall` with the anchored pattern
`^\s*([\d.]+)\s*(Ki|Mi|Gi)\s*$`: returns the captured numeric token and unit
when the whole string matches, `none` otherwise.  Maximal munch on `[\d.]+`
is equivalent to the regex because no digit or dot can begin the `Ki|Mi|Gi`
alternation or the trailing whitespace. -/
def matchChunksizePattern (s : List Char) : Option (List Char × BinaryUnit) :=
  let afterLeading := s.dropWhile isPySpace
  let tok := afterLeading.takeWhile isDigitDot
  let afterTok := (afterLeading.drop tok.length).dropWhile isPySpace
  if tok = [] then none
  else
    match afterTok with
    | 'K' :: 'i' :: rest =>
      if rest.all isPySpace then some (tok, BinaryUnit.Ki) else none
    | 'M' :: 'i' :: rest =>
      if rest.all isPySpace then some (tok, BinaryUnit.Mi) else none
    | 'G' :: 'i' :: rest =>
      if rest.all isPySpace then some (tok, BinaryUnit.Gi) else none
    | _ => none

/-- Value of a list of ASCII digits read in base ten. -/
def digitsToNat (ds : List Char) : ℕ :=
  ds.foldl (fun acc c => acc * 10 + (c.toNat - '0'.toNat)) 0

/-- Model of Python `float(token)` for a token drawn from `[\d.]+`: defined
exactly when the token contains at most one dot and at least one digit
(`float(".")` and `float("1.2.3")` raise `ValueError`).  The value is exact;
double rounding of the decimal literal cannot affect the properties proved
here. -/
def parsePyFloat (tok : List Char) : Option ℚ :=
  if tok.count '.' ≤ 1 && tok.any Char.isDigit then
    let intPart := tok.takeWhile (fun c => !(c == '.'))
    let fracPart := tok.drop (intPart.length + 1)
    some ((digitsToNat intPart : ℚ)
      + (digitsToNat fracPart : ℚ) / ((10 ^ fracPart.length : ℕ) : ℚ))
  else none

/-- The `compressed_chunksize_byte` argument of `compute_chunksize`: either an
integer byte count or a string (modelled as its character list). -/
inductive ChunkTarget where
  | int : ℕ → ChunkTarget
  | str : List Char → ChunkTarget
deriving DecidableEq

/-- Failure modes of `compute_chunksize`: the two explicit `ValueError`
raises with the `InvalidChunkSpec` message, and the uncaught `ValueError`
raised by `float(value)` on a matched but unparseable token. -/
inductive ChunkError where
  | invalidChunkSpec : ChunkError
  | floatValueError : ChunkError
deriving DecidableEq

/-- Model of the string-conversion prologue of `compute_chunksize` (source
lines 569–581): integer targets pass through; string targets must match the
pattern (else `InvalidChunkSpec`), and the matched token is converted with
`int(float(value)) * binary_prefix_conversion_map[unit]`. -/
def parse_compressed_chunksize : ChunkTarget → Except ChunkError ℕ
  | ChunkTarget.int n => Except.ok n
  | ChunkTarget.str s =>
    match matchChunksizePattern s with
    | none => Except.error ChunkError.invalidChunkSpec
    | some (tok, unit) =>
      match parsePyFloat tok with
      | none => Except.error ChunkError.floatValueError
      | some q => Except.ok ((⌊q⌋).toNat * binary_prefix_conversion_map unit)

/-- Binary search for the integer k-th root (model of `int(pow(n, 1/k))`,
exact where the float computation is approximate). -/
def irootGo (k n : ℕ) : ℕ → ℕ → ℕ → ℕ
  | lo, _, 0 => lo
  | lo, hi, fuel + 1 =>
    if hi ≤ lo + 1 then lo
    else
      let mid := (lo + hi) / 2
      if mid ^ k ≤ n then irootGo k n mid hi fuel else irootGo k n lo mid fuel

/-- Integer k-th root: the largest `m` with `m ^ k ≤ n` (for `k ≥ 1`). -/
def iroot (k n : ℕ) : ℕ :=
  irootGo k n 0 (n + 1) (n + 2)

/-- Product of the already-fixed chunk sides
(`suggested_chunksize[~dim_to_process].prod()`; the empty product is 1). -/
def prodFixed : List (Option ℕ) → ℕ
  | [] => 1
  | some v :: rest => v * prodFixed rest
  | none :: rest => prodFixed rest

/-- Number of axes still to process (`dim_to_process.sum()`). -/
def countNone : List (Option ℕ) → ℕ
  | [] => 0
  | some _ :: rest => countNone rest
  | none :: rest => countNone rest + 1

/-- Test `(shape_array[dim_to_process] >= chunksize_oneside).all()`: every
still-unfixed axis has extent at least the candidate side. -/
def allFixedOrGE (c : ℕ) : List ℕ → List (Option ℕ) → Bool
  | s :: ss, o :: os => (o.isSome || decide (c ≤ s)) && allFixedOrGE c ss os
  | _, _ => true

/-- Fix every remaining axis to the candidate side
(`suggested_chunksize[dim_to_process] = chunksize_oneside`). -/
def fillAll (c : ℕ) (st : List (Option ℕ)) : List (Option ℕ) :=
  st.map (fun o => some (o.getD c))

/-- Clamp every still-unfixed axis whose extent is below the candidate side
to its extent (`suggested_chunksize[dim_to_fill] = shape_array[dim_to_fill]`). -/
def clampStep (c : ℕ) : List ℕ → List (Option ℕ) → List (Option ℕ)
  | s :: ss, o :: os =>
    (if o = none ∧ s < c then some s else o) :: clampStep c ss os
  | _, os => os

/-- The planner's `while` loop (source lines 595–604), with explicit fuel.
`none` entries are axes still to process (`dim_to_process`), `some v` entries
are fixed chunk sides.  Fuel `shape.length + 1` always suffices
(`chunkLoopAux_allSome`). -/
def chunkLoopAux (shape : List ℕ) (unrolled : ℕ) :
    ℕ → List (Option ℕ) → List (Option ℕ)
  | 0, st => st
  | fuel + 1, st =>
    if st.all Option.isSome then st
    else
      let remaining := unrolled / prodFixed st
      let oneside := iroot (countNone st) remaining
      if allFixedOrGE oneside shape st then fillAll oneside st
      else chunkLoopAux shape unrolled fuel (clampStep oneside shape st)

/-- The planner's core: run the loop from the all-unfixed state and read the
suggested chunk sides (the `np.full(len(shape), 0)` initialisation is the
`getD 0` default). -/
def compute_chunksize_core (shape : List ℕ) (unrolled : ℕ) : List ℕ :=
  (chunkLoopAux shape unrolled (shape.length + 1)
      (shape.map (fun _ => (none : Option ℕ)))).map (fun o => o.getD 0)

/-- The uncompressed element budget
`int(compressed_chunksize_byte * compression_ratio / itemsize)`. -/
def chunksize_unrolled (bytes : ℕ) (compression_ratio : ℚ) (itemsize : ℕ) : ℕ :=
  (⌊(bytes : ℚ) * compression_ratio / (itemsize : ℚ)⌋).toNat

/-- Model of `convert.compute_chunksize`: string conversion first (its errors
fire before the ratio check, as in the source), then the ratio check, then
the total core loop. -/
def compute_chunksize (shape : List ℕ) (itemsize : ℕ)
    (compression_ratio : ℚ) (target : ChunkTarget) :
    Except ChunkError (List ℕ) :=
  match parse_compressed_chunksize target with
  | Except.error e => Except.error e
  | Except.ok bytes =>
    if compression_ratio < 1 then Except.error ChunkError.invalidChunkSpec
    else Except.ok (compute_chunksize_core shape
          (chunksize_unrolled bytes compression_ratio itemsize))

/-- A target byte specification is well formed when it is an integer, or a
string that matches the pattern with a token `float` accepts. -/
def ChunkTarget.wellFormedB : ChunkTarget → Bool
  | ChunkTarget.int _ => true
  | ChunkTarget.str s =>
    match matchChunksizePattern s with
    | none => false
    | some (tok, _) => (parsePyFloat tok).isSome

/-- Whether an `Except` result is a normal return. -/
def exceptIsOk {ε α : Type} : Except ε α → Bool
  | Except.ok _ => true
  | Except.error _ => false

/-- A target that is a string not matching the pattern. -/
def ChunkTarget.nonMatchingStr : ChunkTarget → Bool
  | ChunkTarget.int _ => false
  | ChunkTarget.str s => (matchChunksizePattern s).isNone

/-- A target string that matches the pattern but whose numeric token
`float` rejects. -/
def ChunkTarget.matchButUnparseable : ChunkTarget → Bool
  | ChunkTarget.int _ => false
  | ChunkTarget.str s =>
    match matchChunksizePattern s with
    | none => false
    | some (tok, _) => (parsePyFloat tok).isNone

/-- The loop invariant: a fixed chunk side never exceeds its axis extent. -/
def SideBound (s : ℕ) (o : Option ℕ) : Prop :=
  ∀ v, o = some v → v ≤ s

theorem sideBound_init (shape : List ℕ) :
    List.Forall₂ SideBound shape (shape.map fun _ => (none : Option ℕ)) := by
  induction shape with
  | nil => simp
  | cons s ss ih =>
    refine List.Forall₂.cons ?_ ih
    intro v hv
    cases hv

theorem sideBound_clampStep (c : ℕ) (shape : List ℕ) (st : List (Option ℕ))
    (h : List.Forall₂ SideBound shape st) :
    List.Forall₂ SideBound shape (clampStep c shape st) := by
  induction h with
  | nil => exact List.Forall₂.nil
  | cons hso hrest ih =>
    rename_i s o ss os
    refine List.Forall₂.cons ?_ ih
    by_cases hc : o = none ∧ s < c
    · simp only [clampStep, if_pos hc]
      intro v hv
      cases hv
      exact le_refl s
    · simp only [clampStep, if_neg hc]
      exact hso

theorem sideBound_fillAll (c : ℕ) (shape : List ℕ) (st : List (Option ℕ))
    (hge : allFixedOrGE c shape st = true)
    (h : List.Forall₂ SideBound shape st) :
    List.Forall₂ SideBound shape (fillAll c st) := by
  induction h with
  | nil => exact List.Forall₂.nil
  | cons hso hrest ih =>
    rename_i s o ss os
    simp only [allFixedOrGE, Bool.and_eq_true] at hge
    refine List.Forall₂.cons ?_ (ih hge.2)
    intro v hv
    simp only [fillAll, List.map] at hv ⊢
    cases o with
    | some w =>
      cases hv
      exact hso w rfl
    | none =>
      cases hv
      rcases Bool.or_eq_true_iff.mp hge.1 with hs | hc
      · simp at hs
      · exact of_decide_eq_true hc

theorem sideBound_loop (shape : List ℕ) (u fuel : ℕ) (st : List (Option ℕ))
    (h : List.Forall₂ SideBound shape st) :
    List.Forall₂ SideBound shape (chunkLoopAux shape u fuel st) := by
  induction fuel generalizing st with
  | zero => exact h
  | succ fuel ih =>
    simp only [chunkLoopAux]
    by_cases hall : st.all Option.isSome = true
    · simpa [hall] using h
    · simp only [hall, if_false, Bool.false_eq_true]
      by_cases hge : allFixedOrGE (iroot (countNone st) (u / prodFixed st)) shape st = true
      · simpa [hge] using sideBound_fillAll _ shape st hge h
      · simpa [hge] using ih _ (sideBound_clampStep _ shape st h)

theorem countNone_clampStep_le (c : ℕ) (shape : List ℕ) (st : List (Option ℕ)) :
    countNone (clampStep c shape st) ≤ countNone st := by
  induction shape generalizing st with
  | nil => simp [clampStep]
  | cons s ss ih =>
    cases st with
    | nil => simp [clampStep]
    | cons o os =>
      by_cases hc : o = none ∧ s < c
      · obtain ⟨ho, hs⟩ := hc
        subst ho
        rw [clampStep, if_pos ⟨rfl, hs⟩]
        simp only [countNone]
        exact le_trans (ih os) (Nat.le_succ _)
      · rw [clampStep, if_neg hc]
        cases o with
        | some v => simp only [countNone]; exact ih os
        | none => simp only [countNone]; exact Nat.succ_le_succ (ih os)

theorem countNone_clampStep_lt (c : ℕ) (shape : List ℕ) (st : List (Option ℕ))
    (h : allFixedOrGE c shape st = false) :
    countNone (clampStep c shape st) < countNone st := by
  induction shape generalizing st with
  | nil => simp [allFixedOrGE] at h
  | cons s ss ih =>
    cases st with
    | nil => simp [allFixedOrGE] at h
    | cons o os =>
      simp only [allFixedOrGE, Bool.and_eq_false_iff] at h
      rcases h with hhead | htail
      · have ho : o = none := by
          cases o with
          | some v => simp at hhead
          | none => rfl
        have hs : s < c := by
          rcases Bool.or_eq_false_iff.mp hhead with ⟨_, hdec⟩
          exact Nat.lt_of_not_le (of_decide_eq_false hdec)
        subst ho
        rw [clampStep, if_pos ⟨rfl, hs⟩]
        simp only [countNone]
        exact Nat.lt_succ_of_le (countNone_clampStep_le c ss os)
      · by_cases hc : o = none ∧ s < c
        · obtain ⟨ho, hs⟩ := hc
          subst ho
          rw [clampStep, if_pos ⟨rfl, hs⟩]
          simp only [countNone]
          exact Nat.lt_succ_of_le (countNone_clampStep_le c ss os)
        · rw [clampStep, if_neg hc]
          cases o with
          | some v => simp only [countNone]; exact ih os htail
          | none => simp only [countNone]; exact Nat.succ_lt_succ (ih os htail)

theorem allSome_of_countNone_zero (st : List (Option ℕ))
    (h : countNone st = 0) : st.all Option.isSome = true := by
  induction st with
  | nil => rfl
  | cons o os ih =>
    cases o with
    | some v => simpa [countNone] using ih (by simpa [countNone] using h)
    | none => simp [countNone] at h

theorem fillAll_allSome (c : ℕ) (st : List (Option ℕ)) :
    (fillAll c st).all Option.isSome = true := by
  induction st with
  | nil => rfl
  | cons o os ih => simp_all [fillAll]

theorem chunkLoopAux_allSome (shape : List ℕ) (u : ℕ) (fuel : ℕ)
    (st : List (Option ℕ)) (h : countNone st ≤ fuel) :
    (chunkLoopAux shape u fuel st).all Option.isSome = true := by
  induction fuel generalizing st with
  | zero =>
    exact allSome_of_countNone_zero st (Nat.le_zero.mp h)
  | succ fuel ih =>
    simp only [chunkLoopAux]
    by_cases hall : st.all Option.isSome = true
    · simp [hall]
    · simp only [hall, if_false, Bool.false_eq_true]
      by_cases hge : allFixedOrGE (iroot (countNone st) (u / prodFixed st)) shape st = true
      · simpa [hge] using fillAll_allSome _ st
      · simp only [hge, if_false, Bool.false_eq_true]
        refine ih _ ?_
        have := countNone_clampStep_lt
          (iroot (countNone st) (u / prodFixed st)) shape st
          (by simpa using hge)
        omega

theorem countNone_init (shape : List ℕ) :
    countNone (shape.map fun _ => (none : Option ℕ)) = shape.length := by
  induction shape with
  | nil => rfl
  | cons s ss ih => simpa [countNone] using ih

theorem sideBound_getD (shape : List ℕ) (st : List (Option ℕ))
    (h : List.Forall₂ SideBound shape st) (i : ℕ) :
    (st.map fun o => o.getD 0).getD i 0 ≤ shape.getD i 0 := by
  induction h generalizing i with
  | nil => simp
  | cons hso hrest ih =>
    rename_i s o ss os
    cases i with
    | zero =>
      cases o with
      | some v => simpa using hso v rfl
      | none => simp
    | succ j => simpa using ih j

/-- Specification of the planner core: the result has the same rank as the
shape, every component is bounded by the corresponding shape component, and
the loop reaches the state where every axis has been fixed (so the `while`
loop of the source exits by processing all axes, not by running out of
fuel). -/
theorem compute_chunksize_core_spec (shape : List ℕ) (u : ℕ) :
    (compute_chunksize_core shape u).length = shape.length
    ∧ (∀ i, (compute_chunksize_core shape u).getD i 0 ≤ shape.getD i 0)
    ∧ (chunkLoopAux shape u (shape.length + 1)
        (shape.map fun _ => (none : Option ℕ))).all Option.isSome = true := by
  have hinv := sideBound_loop shape u (shape.length + 1) _ (sideBound_init shape)
  refine ⟨?_, ?_, ?_⟩
  · simpa [compute_chunksize_core] using hinv.length_eq.symm
  · intro i
    exact sideBound_getD shape _ hinv i
  · exact chunkLoopAux_allSome shape u (shape.length + 1) _
      (by rw [countNone_init]; exact Nat.le_succ _)

theorem parse_ok_of_wellFormed (target : ChunkTarget)
    (h : target.wellFormedB = true) :
    ∃ n, parse_compressed_chunksize target = Except.ok n := by
  cases target with
  | int n => exact ⟨n, rfl⟩
  | str s =>
    simp only [ChunkTarget.wellFormedB] at h
    cases hm : matchChunksizePattern s with
    | none => rw [hm] at h; simp at h
    | some p =>
      obtain ⟨tok, unit⟩ := p
      rw [hm] at h
      dsimp only at h
      cases hp : parsePyFloat tok with
      | none => rw [hp] at h; simp at h
      | some q =>
        refine ⟨(⌊q⌋).toNat * binary_prefix_conversion_map unit, ?_⟩
        simp [parse_compressed_chunksize, hm, hp]

/-- C5: for every shape of positive extents, every element size, and every
valid compression ratio and target byte budget, `compute_chunksize` returns
normally with a chunk shape of the same rank whose components are bounded by
the shape components; the loop fixes every axis (termination), and — the
embedding being a pure function — repeated invocation is definitionally
identical. -/
theorem compute_chunksize_terminates_rank_bounded (shape : List ℕ)
    (itemsize : ℕ) (compression_ratio : ℚ) (target : ChunkTarget)
    ( _hshape : ∀ s ∈ shape, 0 < s) ( _hitem : 0 < itemsize)
    (hratio : 1 ≤ compression_ratio)
    (htarget : target.wellFormedB = true) :
    ∃ chunks,
      compute_chunksize shape itemsize compression_ratio target
          = Except.ok chunks
      ∧ chunks.length = shape.length
      ∧ (∀ i, chunks.getD i 0 ≤ shape.getD i 0)
      ∧ (∀ u, (chunkLoopAux shape u (shape.length + 1)
            (shape.map fun _ => (none : Option ℕ))).all Option.isSome = true)
      ∧ compute_chunksize shape itemsize compression_ratio target
          = compute_chunksize shape itemsize compression_ratio target := by
  obtain ⟨bytes, hb⟩ := parse_ok_of_wellFormed target htarget
  have hnotlt : ¬ compression_ratio < 1 := not_lt.mpr hratio
  refine ⟨compute_chunksize_core shape
      (chunksize_unrolled bytes compression_ratio itemsize), ?_, ?_, ?_, ?_, rfl⟩
  · simp [compute_chunksize, hb, hnotlt]
  · exact (compute_chunksize_core_spec shape _).1
  · exact (compute_chunksize_core_spec shape _).2.1
  · intro u
    exact (compute_chunksize_core_spec shape u).2.2

deriving instance DecidableEq for Except

/-- Witness for C5 at shape `[3, 5]`, 8-byte elements, ratio `3/2` and an
integer 96-byte budget: the planner returns a rank-2 result bounded by the
shape. -/
theorem compute_chunksize_terminates_witness :
    ∃ chunks,
      compute_chunksize [3, 5] 8 (3 / 2) (ChunkTarget.int 96) = Except.ok chunks
      ∧ chunks.length = ([3, 5] : List ℕ).length
      ∧ (∀ i, chunks.getD i 0 ≤ ([3, 5] : List ℕ).getD i 0)
      ∧ (∀ u, (chunkLoopAux [3, 5] u (([3, 5] : List ℕ).length + 1)
            (([3, 5] : List ℕ).map fun _ => (none : Option ℕ))).all
              Option.isSome = true)
      ∧ compute_chunksize [3, 5] 8 (3 / 2) (ChunkTarget.int 96)
          = compute_chunksize [3, 5] 8 (3 / 2) (ChunkTarget.int 96) :=
  compute_chunksize_terminates_rank_bounded [3, 5] 8 (3 / 2)
    (ChunkTarget.int 96) (by decide) (by decide) (by norm_num) (by decide)

/-- C6 counterexample: the string `". Ki"` matches the pattern
`^\s*([\d.]+)\s*(Ki|Mi|Gi)\s*$` (token `"."`), and the ratio `3/2` is at least
1, so the claim says `compute_chunksize` returns normally — but the source
raises the uncaught `ValueError` from `float(".")`, which is not one of the
two `InvalidChunkSpec` raises. -/
theorem compute_chunksize_matching_string_not_ok :
    (matchChunksizePattern (". Ki".toList)).isSome = true
    ∧ ((1 : ℚ) ≤ 3 / 2)
    ∧ compute_chunksize [4] 8 (3 / 2) (ChunkTarget.str (". Ki".toList))
        = Except.error ChunkError.floatValueError := by
  refine ⟨by decide, by norm_num, by decide⟩

/-- C6 (amended): `compute_chunksize` fails with the `InvalidChunkSpec` kind
iff the target is a string not matching the pattern, or the target is well
formed (integer, or matching with a parseable token) and the ratio is below
1; it fails with the uncaught `float` `ValueError` iff the target matches the
pattern but its numeric token is not a valid float literal (that failure
fires before the ratio check); and it returns normally iff the target is well
formed and the ratio is at least 1. -/
theorem compute_chunksize_error_characterization (shape : List ℕ)
    (itemsize : ℕ) (compression_ratio : ℚ) (target : ChunkTarget) :
    (compute_chunksize shape itemsize compression_ratio target
        = Except.error ChunkError.invalidChunkSpec
      ↔ (target.nonMatchingStr = true
          ∨ (target.wellFormedB = true ∧ compression_ratio < 1)))
    ∧ (compute_chunksize shape itemsize compression_ratio target
        = Except.error ChunkError.floatValueError
      ↔ target.matchButUnparseable = true)
    ∧ (exceptIsOk (compute_chunksize shape itemsize compression_ratio target)
        = true
      ↔ (target.wellFormedB = true ∧ 1 ≤ compression_ratio)) := by
  cases target with
  | int n =>
    by_cases hr : compression_ratio < 1
    · simp [compute_chunksize, parse_compressed_chunksize, hr,
        ChunkTarget.nonMatchingStr, ChunkTarget.wellFormedB,
        ChunkTarget.matchButUnparseable, exceptIsOk, not_le.mpr hr]
    · simp [compute_chunksize, parse_compressed_chunksize, hr,
        ChunkTarget.nonMatchingStr, ChunkTarget.wellFormedB,
        ChunkTarget.matchButUnparseable, exceptIsOk, not_lt.mp hr]
  | str s =>
    cases hm : matchChunksizePattern s with
    | none =>
      simp [compute_chunksize, parse_compressed_chunksize, hm,
        ChunkTarget.nonMatchingStr, ChunkTarget.wellFormedB,
        ChunkTarget.matchButUnparseable, exceptIsOk]
    | some p =>
      obtain ⟨tok, unit⟩ := p
      cases hp : parsePyFloat tok with
      | none =>
        simp [compute_chunksize, parse_compressed_chunksize, hm, hp,
          ChunkTarget.nonMatchingStr, ChunkTarget.wellFormedB,
          ChunkTarget.matchButUnparseable, exceptIsOk]
      | some q =>
        by_cases hr : compression_ratio < 1
        · simp [compute_chunksize, parse_compressed_chunksize, hm, hp, hr,
            ChunkTarget.nonMatchingStr, ChunkTarget.wellFormedB,
            ChunkTarget.matchButUnparseable, exceptIsOk, not_le.mpr hr]
        · simp [compute_chunksize, parse_compressed_chunksize, hm, hp, hr,
            ChunkTarget.nonMatchingStr, ChunkTarget.wellFormedB,
            ChunkTarget.matchButUnparseable, exceptIsOk, not_lt.mp hr]

/-- Witness for C6 (amended): an integer target with ratio `1/2` fails with
`InvalidChunkSpec`. -/
theorem compute_chunksize_error_characterization_witness :
    compute_chunksize [4] 8 (1 / 2) (ChunkTarget.int 96)
      = Except.error ChunkError.invalidChunkSpec :=
  (compute_chunksize_error_characterization [4] 8 (1 / 2)
    (ChunkTarget.int 96)).1.mpr (Or.inr ⟨by decide, by norm_num⟩)

/-! ## Per-granule chunk shapes (`convert.granule_chunk_shapes` /
`convert._chunk_shapes`)

`_chunk_shapes(group, results={})` binds its `results` dictionary **once, at
function definition time**; every call that relies on the default argument
mutates that single shared dictionary.  The model makes the hidden module
state explicit: `granule_chunk_shapes` receives the current contents of the
shared default dictionary and returns both its result and the new contents
(which are the same object in Python). -/

/-- A variable of an input NetCDF-4 granule as seen by `_chunk_shapes`: its
name, array shape and element size. -/
structure NcVariable where
  name : String
  shape : List ℕ
  itemsize : ℕ
deriving DecidableEq

/-- A (sub)group of an input granule: its `path` attribute, its variables,
and its nested groups. -/
inductive NcGroup where
  | mk : String → List NcVariable → List NcGroup → NcGroup

/-- Python `variable_path.lstrip("/")` on the character data. -/
def lstripSlashes (s : String) : String :=
  String.mk (s.toList.dropWhile (fun c => c == '/'))

/-- The fully qualified variable path built by `_chunk_shapes`:
`'/'.join([group.path, name])` normalised to a single leading slash. -/
def variable_path (groupPath name : String) : String :=
  "/" ++ lstripSlashes (groupPath ++ "/" ++ name)

/-- CPython dictionary assignment `results[key] = value`: replace in place
when the key exists, else append. -/
def assocSet (results : List (String × List ℕ)) (key : String)
    (value : List ℕ) : List (String × List ℕ) :=
  if results.any (fun entry => entry.1 == key) then
    results.map (fun entry => if entry.1 == key then (key, value) else entry)
  else results ++ [(key, value)]

/-- `compute_chunksize` at its default arguments (`compression_ratio = 1.5`,
`compressed_chunksize_byte = '10 Mi'`, which parses to 10485760 bytes); see
`compute_chunksize_default_eq`. -/
def compute_chunksize_default (shape : List ℕ) (itemsize : ℕ) : List ℕ :=
  compute_chunksize_core shape (chunksize_unrolled 10485760 (3 / 2) itemsize)

theorem compute_chunksize_parse_ok (shape : List ℕ) (itemsize : ℕ)
    (compression_ratio : ℚ) (target : ChunkTarget) (bytes : ℕ)
    (hparse : parse_compressed_chunksize target = Except.ok bytes)
    (hr : ¬ compression_ratio < 1) :
    compute_chunksize shape itemsize compression_ratio target
      = Except.ok (compute_chunksize_core shape
          (chunksize_unrolled bytes compression_ratio itemsize)) := by
  simp [compute_chunksize, hparse, hr]

theorem parse_ten_mi :
    parse_compressed_chunksize (ChunkTarget.str ("10 Mi".toList))
      = Except.ok 10485760 := by
  have hmatch : matchChunksizePattern ("10 Mi".toList)
      = some (['1', '0'], BinaryUnit.Mi) := by decide
  have hq : parsePyFloat ['1', '0'] = some 10 := by
    simp [parsePyFloat, digitsToNat]
  simp only [parse_compressed_chunksize, hmatch, hq]
  decide

theorem compute_chunksize_default_eq (shape : List ℕ) (itemsize : ℕ) :
    compute_chunksize shape itemsize (3 / 2) (ChunkTarget.str ("10 Mi".toList))
      = Except.ok (compute_chunksize_default shape itemsize) :=
  compute_chunksize_parse_ok shape itemsize (3 / 2)
    (ChunkTarget.str ("10 Mi".toList)) 10485760 parse_ten_mi (by norm_num)

mutual

/-- Model of `convert._chunk_shapes`: record the chunk shape of every
variable of the group under its fully qualified path, then fold over the
nested groups.  The Python `results.update(_chunk_shapes(child, results))`
updates the dictionary with the very object it already mutated, so the model
threads one accumulator. -/
def _chunk_shapes : NcGroup → List (String × List ℕ) → List (String × List ℕ)
  | NcGroup.mk path vars childGroups, results =>
    _chunk_shapes_groups childGroups
      (vars.foldl
        (fun acc v =>
          assocSet acc (variable_path path v.name)
            (compute_chunksize_default v.shape v.itemsize))
        results)

/-- Fold of `_chunk_shapes` over a list of nested groups. -/
def _chunk_shapes_groups :
    List NcGroup → List (String × List ℕ) → List (String × List ℕ)
  | [], results => results
  | g :: gs, results => _chunk_shapes_groups gs (_chunk_shapes g results)

end

/-- Model of `convert.granule_chunk_shapes`: open the granule and call
`_chunk_shapes(dataset)` — which uses the shared default dictionary.  The
extra argument/result is the module-level state of that dictionary. -/
def granule_chunk_shapes (granule : NcGroup)
    (sharedDefaultDict : List (String × List ℕ)) :
    List (String × List ℕ) × List (String × List ℕ) :=
  let updated := _chunk_shapes granule sharedDefaultDict
  (updated, updated)

/-- A one-variable granule with a root variable `a`. -/
def granuleA : NcGroup := NcGroup.mk "/" [⟨"a", [4], 8⟩] []

/-- A one-variable granule with a root variable `b`. -/
def granuleB : NcGroup := NcGroup.mk "/" [⟨"b", [4], 8⟩] []

/-- C10: `granule_chunk_shapes` is not a pure function of its argument
across calls.  Starting from a fresh module state, processing granule A and
then granule B returns, on the second call, a mapping that still contains
the path `/a` recorded for the first granule; a fresh first call on granule
B alone returns only `/b` — the two results differ. -/
theorem granule_chunk_shapes_shared_default_leak :
    ((granule_chunk_shapes granuleB (granule_chunk_shapes granuleA []).2).1.map
        Prod.fst = ["/a", "/b"])
    ∧ ((granule_chunk_shapes granuleB []).1.map Prod.fst = ["/b"])
    ∧ (granule_chunk_shapes granuleB (granule_chunk_shapes granuleA []).2).1
        ≠ (granule_chunk_shapes granuleB []).1 := by
  refine ⟨by decide, by decide, by decide⟩

/-! ## Mosaic utilities: scaling, resolution and output grid
(`mosaic_utilities.scale_to_integers` / `get_resolution` / `get_grid_values`)

Dimension values are modelled as exact rationals.  `scale_to_integers`
multiplies every value by ten until all values are integral (in floats:
equal to their `astype(int)` truncation), capping the scale factor at
`1e10`; the model counts the multiplications (`k`, scale factor `10^k`),
so the guard `scale_factor < 1e10` is `k < 10` and `int(np.log10(scale))`
is `k`.  `np.round`/`np.around` round half to even while `round` here
rounds half up; the two agree away from exact halves, which none of the
statements below involve. -/

/-- Truncation toward zero (`ndarray.astype(int)` on a rational value). -/
def ratTrunc (q : ℚ) : ℤ :=
  q.num / (q.den : ℤ)

/-- The guard `any(np.not_equal(scaled_values, scaled_values.astype(int)))`. -/
def anyNonIntegral (vals : List ℚ) : Bool :=
  vals.any (fun v => !(v == ((ratTrunc v : ℤ) : ℚ)))

/-- The while loop of `scale_to_integers`, with explicit fuel (11 suffices:
the factor cap stops the loop after at most ten multiplications). -/
def scaleLoop : ℕ → List ℚ → ℕ → List ℚ × ℕ
  | 0, vals, k => (vals, k)
  | fuel + 1, vals, k =>
    if anyNonIntegral vals && decide (k < 10) then
      scaleLoop fuel (vals.map (fun v => v * 10)) (k + 1)
    else (vals, k)

/-- Model of `mosaic_utilities.scale_to_integers`: the rounded scaled integer
values and the exponent of the scale factor. -/
def scale_to_integers (input_floats : List ℚ) : List ℤ × ℕ :=
  let scaledAndExponent := scaleLoop 11 input_floats 0
  (scaledAndExponent.1.map (fun v => round v), scaledAndExponent.2)

/-- Model of `np.gcd.reduce` (whose ufunc identity is 0, so the reduction of
an empty array is 0, not an error). -/
def gcdReduce (diffs : List ℤ) : ℕ :=
  diffs.foldr (fun d acc => Nat.gcd d.natAbs acc) 0

/-- The non-zero differences between the scaled values and the scaled
minimum (`scaled_diff_pairs[scaled_diff_pairs.nonzero()]`). -/
def nonZeroDiffs (scaled : List ℤ) : List ℤ :=
  (scaled.map (fun v => v - listMin scaled)).filter (fun d => !(d == 0))

/-- Model of `mosaic_utilities.get_resolution`: greatest common divisor of
the non-zero scaled differences, divided back by the scale factor. -/
def get_resolution (dimension_values : List ℚ) : ℚ :=
  let scaled := (scale_to_integers dimension_values).1
  let k := (scale_to_integers dimension_values).2
  ((gcdReduce (nonZeroDiffs scaled) : ℕ) : ℚ) / ((10 ^ k : ℕ) : ℚ)

/-- Model of `np.around` at `decimals` decimal places. -/
def np_around (q : ℚ) (decimals : ℕ) : ℚ :=
  ((round (q * ((10 ^ decimals : ℕ) : ℚ)) : ℤ) : ℚ) / ((10 ^ decimals : ℕ) : ℚ)

/-- Model of `np.linspace` over exact rationals: `n` points from `lo` to
`hi` inclusive.  For `n = 1` the sole point is `lo`, as in numpy. -/
def linspace (lo hi : ℚ) (n : ℕ) : List ℚ :=
  (List.range n).map
    (fun i : ℕ => lo + (i : ℚ) * ((hi - lo) / ((n - 1 : ℕ) : ℚ)))

/-- The grid-point count of `get_grid_values`:
`int(np.round((grid_max - grid_min) / grid_resolution)) + 1` on the branch
where the extremes differ, and 1 on the one-point branch — the division by
the resolution is evaluated only on the first branch. -/
def n_grid_points (input_values : List ℚ) (grid_resolution : ℚ) : ℕ :=
  if listMin input_values ≠ listMax input_values then
    (round ((listMax input_values - listMin input_values)
      / grid_resolution)).toNat + 1
  else 1

/-- Model of `mosaic_utilities.get_grid_values`: a linearly spaced grid from
the minimum to the maximum input value, rounded to the decimal precision
implied by the scale factor. -/
def get_grid_values (input_values : List ℚ) (grid_resolution : ℚ) : List ℚ :=
  let k := (scale_to_integers input_values).2
  (linspace (listMin input_values) (listMax input_values)
      (n_grid_points input_values grid_resolution)).map
    (fun gridValue => np_around gridValue k)

theorem rat_den_one_iff_trunc (v : ℚ) :
    v = ((ratTrunc v : ℤ) : ℚ) ↔ v.den = 1 := by
  constructor
  · intro h
    rw [h]
    exact Rat.den_intCast _
  · intro h
    have hnum : ratTrunc v = v.num := by
      rw [ratTrunc, h]
      simp
    rw [hnum, (Rat.den_eq_one_iff v).mp h]

theorem anyNonIntegral_false (l : List ℚ) :
    anyNonIntegral l = false ↔ ∀ v ∈ l, v.den = 1 := by
  rw [anyNonIntegral, List.any_eq_false]
  constructor
  · intro h v hv
    have := h v hv
    simp only [Bool.not_eq_true', beq_eq_false_iff_ne, ne_eq,
      Decidable.not_not] at this
    exact (rat_den_one_iff_trunc v).mp this
  · intro h v hv
    simp only [Bool.not_eq_true', beq_eq_false_iff_ne, ne_eq,
      Decidable.not_not]
    exact (rat_den_one_iff_trunc v).mpr (h v hv)

theorem scaleLoop_integral (fuel k : ℕ) (l : List ℚ)
    (h : ∀ v ∈ l, v.den = 1) : scaleLoop fuel l k = (l, k) := by
  cases fuel with
  | zero => rfl
  | succ fuel =>
    have hany : anyNonIntegral l = false := (anyNonIntegral_false l).mpr h
    simp [scaleLoop, hany]

theorem round_den_one (v : ℚ) (h : v.den = 1) : round v = v.num := by
  conv_lhs => rw [((Rat.den_eq_one_iff v).mp h).symm]
  exact round_intCast v.num

theorem scale_to_integers_integral (l : List ℚ)
    (h : ∀ v ∈ l, v.den = 1) :
    scale_to_integers l = (l.map (fun v => v.num), 0) := by
  rw [scale_to_integers, scaleLoop_integral 11 0 l h]
  refine congrArg (fun s => (s, 0)) ?_
  exact List.map_congr_left (fun v hv => round_den_one v (h v hv))

theorem scaleLoop_const (fuel : ℕ) :
    ∀ (l : List ℚ) (k : ℕ) (v : ℚ), (∀ x ∈ l, x = v) →
      ∃ w, ∀ x ∈ (scaleLoop fuel l k).1, x = w := by
  induction fuel with
  | zero => exact fun l k v h => ⟨v, h⟩
  | succ fuel ih =>
    intro l k v h
    by_cases hc : (anyNonIntegral l && decide (k < 10)) = true
    · rw [scaleLoop, if_pos hc]
      refine ih (l.map (fun x => x * 10)) (k + 1) (v * 10) ?_
      intro x hx
      obtain ⟨y, hy, rfl⟩ := List.mem_map.mp hx
      rw [h y hy]
    · rw [scaleLoop, if_neg hc]
      exact ⟨v, h⟩

theorem nonZeroDiffs_const (s : List ℤ) (w : ℤ) (h : ∀ x ∈ s, x = w) :
    nonZeroDiffs s = [] := by
  rw [nonZeroDiffs]
  refine List.filter_eq_nil_iff.mpr ?_
  intro d hd
  obtain ⟨x, hx, rfl⟩ := List.mem_map.mp hd
  have hxw : x = w := h x hx
  have hmin : listMin s = w := by
    cases s with
    | nil => cases hx
    | cons y ys => exact h _ (listMin_mem (y :: ys) (by simp))
  simp [hxw, hmin]

theorem get_resolution_const (l : List ℚ) (v : ℚ) (h : ∀ x ∈ l, x = v) :
    get_resolution l
      = 0 ∧ nonZeroDiffs ((scale_to_integers l).1) = [] := by
  obtain ⟨w, hw⟩ := scaleLoop_const 11 l 0 v h
  have hdiffs : nonZeroDiffs ((scale_to_integers l).1) = [] := by
    refine nonZeroDiffs_const _ (round w) ?_
    intro x hx
    rw [scale_to_integers] at hx
    obtain ⟨y, hy, rfl⟩ := List.mem_map.mp hx
    rw [hw y hy]
  refine ⟨?_, hdiffs⟩
  rw [get_resolution, hdiffs]
  simp [gcdReduce]

theorem listMin_const (l : List ℚ) (v : ℚ) (hne : l ≠ [])
    (h : ∀ x ∈ l, x = v) : listMin l = v :=
  h _ (listMin_mem l hne)

theorem listMax_const (l : List ℚ) (v : ℚ) (hne : l ≠ [])
    (h : ∀ x ∈ l, x = v) : listMax l = v :=
  h _ (listMax_mem l hne)

theorem np_around_den_one (q : ℚ) (h : q.den = 1) : np_around q 0 = q := by
  rw [np_around]
  norm_num [round_den_one q h, (Rat.den_eq_one_iff q).mp h]

/-- The one-point branch and its result for a constant integral input:
shared between the claims about `get_grid_values`. -/
theorem get_grid_values_const (l : List ℚ) (v : ℚ) (hne : l ≠ [])
    (h : ∀ x ∈ l, x = v) (hden : v.den = 1) (r : ℚ) :
    n_grid_points l r = 1 ∧ get_grid_values l r = [v] := by
  have hmin : listMin l = v := listMin_const l v hne h
  have hmax : listMax l = v := listMax_const l v hne h
  have hn : n_grid_points l r = 1 := by
    rw [n_grid_points, if_neg]
    rw [hmin, hmax]
    exact fun hc => hc rfl
  refine ⟨hn, ?_⟩
  have hints : ∀ x ∈ l, x.den = 1 := fun x hx => by rw [h x hx]; exact hden
  rw [get_grid_values, scale_to_integers_integral l hints, hn, hmin, hmax]
  show List.map _ (List.map _ (List.range 1)) = _
  simp only [List.range_succ, List.range_zero, List.nil_append,
    List.map_cons, List.map_nil]
  rw [Nat.cast_zero, zero_mul, add_zero]
  rw [np_around_den_one v hden]

/-- C3 counterexample: for the two-element constant array `[5, 5]` the
resolution is 0 and the grid is the single point `[5]`, which is not equal
to the input array `[5, 5]` — the claim's "grid equal to the input values"
holds only up to deduplication (in particular for single-element inputs). -/
theorem get_grid_values_constant_pair_counterexample :
    get_resolution [5, 5] = 0
    ∧ get_grid_values [5, 5] (get_resolution [5, 5]) = [5]
    ∧ get_grid_values [5, 5] (get_resolution [5, 5]) ≠ [5, 5] := by
  refine ⟨by decide, by decide, by decide⟩

/-- C3 (amended): for every non-empty input array whose elements are all
equal, `get_resolution` returns 0 without failing — the set of non-zero
scaled differences is empty and `np.gcd.reduce` of an empty array is its
identity 0 — and `get_grid_values` with that resolution takes the one-point
branch (so the division of the grid extent by the zero resolution is never
evaluated) and returns the single-point grid holding the common value: equal
to the input exactly when the input has one element. -/
theorem get_resolution_constant_amended (v : ℚ) (l : List ℚ)
    (hne : l ≠ []) (hconst : ∀ x ∈ l, x = v) :
    get_resolution l = 0
    ∧ nonZeroDiffs ((scale_to_integers l).1) = []
    ∧ gcdReduce [] = 0
    ∧ n_grid_points l (get_resolution l) = 1
    ∧ (v.den = 1 → get_grid_values l (get_resolution l) = [v]) := by
  obtain ⟨hres, hdiffs⟩ := get_resolution_const l v hconst
  refine ⟨hres, hdiffs, rfl, ?_, ?_⟩
  · have hmin : listMin l = v := listMin_const l v hne hconst
    have hmax : listMax l = v := listMax_const l v hne hconst
    rw [n_grid_points, if_neg]
    rw [hmin, hmax]
    exact fun hc => hc rfl
  · intro hden
    exact (get_grid_values_const l v hne hconst hden _).2

/-- Witness for C3 (amended) at the constant array `[7, 7, 7]`. -/
theorem get_resolution_constant_witness :
    get_resolution [7, 7, 7] = 0
    ∧ nonZeroDiffs ((scale_to_integers [7, 7, 7]).1) = []
    ∧ gcdReduce [] = 0
    ∧ n_grid_points [7, 7, 7] (get_resolution [7, 7, 7]) = 1
    ∧ ((7 : ℚ).den = 1 →
        get_grid_values [7, 7, 7] (get_resolution [7, 7, 7]) = [7]) :=
  get_resolution_constant_amended 7 [7, 7, 7] (by decide)
    (by intro x hx; simp only [List.mem_cons, List.not_mem_nil, or_false] at hx
        rcases hx with rfl | rfl | rfl <;> rfl)

/-! ## Dimension records and temporal aggregation
(`mosaic_utilities.DimensionInformation` /
`DimensionsMapping._get_temporal_output_dimension` /
`DimensionsMapping._aggregate_output_dimensions`)

A dimension record carries the verbatim `units` metadata string together
with the data `_get_epoch_and_unit` parses out of it: the recognized time
unit as its length in seconds (`time_unit_to_delta_map`) and the epoch as a
timestamp in seconds (`dateutil` parsing itself is not modelled; a record
carries the parsed result).  Temporal values are exact rationals; a value
`v` in units `(delta, epoch)` denotes the timestamp `epoch + v * delta`,
which is the exact content of `cftime.date2num`/`num2date` on the standard
calendar. -/

/-- A parsed temporal units string: seconds per time unit and the epoch
timestamp in seconds. -/
structure UnitsInfo where
  delta : ℚ
  epoch : ℚ
deriving DecidableEq

/-- Model of `mosaic_utilities.DimensionInformation`. -/
structure DimensionInformation where
  units : Option String
  time_unit : Option ℚ
  epoch : Option ℚ
  values : List ℚ
deriving DecidableEq

/-- Model of `DimensionInformation.is_temporal`: both the time unit and the
epoch could be extracted from the `units` attribute. -/
def DimensionInformation.is_temporal (d : DimensionInformation) : Bool :=
  d.time_unit.isSome && d.epoch.isSome

/-- Model of `DimensionInformation.get_values`: when the record is temporal
and output units are supplied, convert each value to the output epoch;
otherwise return the stored values unchanged. -/
def DimensionInformation.get_values (d : DimensionInformation)
    (output_units : Option UnitsInfo) : List ℚ :=
  match output_units with
  | some out =>
    if d.is_temporal then
      d.values.map (fun v =>
        (d.epoch.getD 0 + v * d.time_unit.getD 0 - out.epoch) / out.delta)
    else d.values
  | none => d.values

/-- Model of `np.unique`: the sorted list of distinct values. -/
def np_unique (l : List ℚ) : List ℚ :=
  (List.insertionSort (· ≤ ·) l).dedup

/-- Model of `np.argmin`: the index of the first minimal element. -/
def np_argmin (l : List ℚ) : ℕ :=
  l.indexOf (listMin l)

/-- A placeholder record for out-of-range indexing; never reached when the
input list is non-empty. -/
def emptyDimensionInformation : DimensionInformation :=
  ⟨none, none, none, []⟩

/-- The contributing record with the earliest epoch
(`dimension_units[np.argmin(dimension_epochs)]` selects its units). -/
def chosen_input (dimension_inputs : List DimensionInformation) :
    DimensionInformation :=
  dimension_inputs.getD
    (np_argmin (dimension_inputs.map (fun d => d.epoch.getD 0)))
    emptyDimensionInformation

/-- The output units parsed from the chosen record's units string. -/
def chosen_units (dimension_inputs : List DimensionInformation) : UnitsInfo :=
  ⟨(chosen_input dimension_inputs).time_unit.getD 0,
   (chosen_input dimension_inputs).epoch.getD 0⟩

/-- The combined dimension values of `_get_temporal_output_dimension`:
every record's values converted to the chosen output units, concatenated,
sorted and deduplicated (`np.unique(np.concatenate(...))`).  The `dtype=`
coercion of the concatenation is outside the exact-arithmetic scope. -/
def combined_input_values (dimension_inputs : List DimensionInformation) :
    List ℚ :=
  np_unique
    ((dimension_inputs.map (fun d =>
        d.get_values (some (chosen_units dimension_inputs)))).flatten)

/-- The aggregated output dimension: verbatim units string of the
earliest-epoch record, and a regular grid over the combined values. -/
structure OutputDimension where
  units : Option String
  values : List ℚ
deriving DecidableEq

/-- Model of `DimensionsMapping._get_output_dimension` (bounds, which no
claim concerns, are not modelled): resolution from the greatest common
divisor, grid from the resolution. -/
def _get_output_dimension (input_dimension_values : List ℚ)
    (dimension_units : Option String) : OutputDimension :=
  ⟨dimension_units,
   get_grid_values input_dimension_values
     (get_resolution input_dimension_values)⟩

/-- Model of `DimensionsMapping._get_temporal_output_dimension`. -/
def _get_temporal_output_dimension
    (dimension_inputs : List DimensionInformation) : OutputDimension :=
  _get_output_dimension (combined_input_values dimension_inputs)
    (chosen_input dimension_inputs).units

/-- Model of `DimensionsMapping._aggregate_output_dimensions` over the
entries of `input_dimensions` (dimension path together with the records
contributed by each input file, in iteration order): all-temporal entries
are aggregated, mixed entries raise `MixedDimensionTypeError` naming the
path, all-non-temporal entries are skipped (non-temporal aggregation is
disabled by policy). -/
def _aggregate_output_dimensions :
    List (String × List DimensionInformation) →
      Except String (List (String × OutputDimension))
  | [] => Except.ok []
  | (dimension_name, dimension_inputs) :: rest =>
    if dimension_inputs.all (fun d => d.is_temporal) then
      match _aggregate_output_dimensions rest with
      | Except.error e => Except.error e
      | Except.ok others =>
        Except.ok ((dimension_name,
          _get_temporal_output_dimension dimension_inputs) :: others)
    else if dimension_inputs.any (fun d => d.is_temporal) then
      Except.error dimension_name
    else
      _aggregate_output_dimensions rest

/-- A dimension path whose contributing records mix temporal and
non-temporal kinds. -/
def mixedRecords (records : List DimensionInformation) : Prop :=
  (∃ d ∈ records, d.is_temporal = true)
    ∧ (∃ d ∈ records, d.is_temporal = false)

/-- C4: for a temporally aggregated dimension, the output units string is
exactly the verbatim units string of a contributing record whose epoch is
earliest; the combined values used to build the grid are obtained by
converting every record's values to that record's units and taking the
sorted, duplicate-free union: the combined list is sorted, has no
duplicates, and contains exactly the converted values of the contributing
records. -/
theorem temporal_aggregation_earliest_epoch_union
    (dimension_inputs : List DimensionInformation)
    (hne : dimension_inputs ≠ []) :
    (chosen_input dimension_inputs ∈ dimension_inputs
      ∧ ∀ d ∈ dimension_inputs,
          (chosen_input dimension_inputs).epoch.getD 0 ≤ d.epoch.getD 0)
    ∧ (_get_temporal_output_dimension dimension_inputs).units
        = (chosen_input dimension_inputs).units
    ∧ List.Sorted (· ≤ ·) (combined_input_values dimension_inputs)
    ∧ (combined_input_values dimension_inputs).Nodup
    ∧ (∀ x, x ∈ combined_input_values dimension_inputs
        ↔ ∃ d ∈ dimension_inputs,
            x ∈ d.get_values (some (chosen_units dimension_inputs))) := by
  have hepne : dimension_inputs.map (fun d => d.epoch.getD 0) ≠ [] := by
    intro hmap
    exact hne (List.map_eq_nil_iff.mp hmap)
  refine ⟨?_, rfl, ?_, List.nodup_dedup _, ?_⟩
  · have hmem : listMin (dimension_inputs.map (fun d => d.epoch.getD 0))
        ∈ dimension_inputs.map (fun d => d.epoch.getD 0) :=
      listMin_mem _ hepne
    have hidx :
        (dimension_inputs.map (fun d => d.epoch.getD 0)).indexOf
            (listMin (dimension_inputs.map (fun d => d.epoch.getD 0)))
          < (dimension_inputs.map (fun d => d.epoch.getD 0)).length :=
      List.indexOf_lt_length.mpr hmem
    have hidx' :
        (dimension_inputs.map (fun d => d.epoch.getD 0)).indexOf
            (listMin (dimension_inputs.map (fun d => d.epoch.getD 0)))
          < dimension_inputs.length := by
      simpa using hidx
    have hchosen : chosen_input dimension_inputs
        = dimension_inputs.get ⟨(dimension_inputs.map
            (fun d => d.epoch.getD 0)).indexOf
            (listMin (dimension_inputs.map
              (fun d => d.epoch.getD 0))), hidx'⟩ := by
      rw [chosen_input, np_argmin,
        List.getD_eq_getElem dimension_inputs emptyDimensionInformation
          hidx']
      exact (List.get_eq_getElem dimension_inputs ⟨_, hidx'⟩).symm
    have hchosenEpoch : (chosen_input dimension_inputs).epoch.getD 0
        = listMin (dimension_inputs.map (fun d => d.epoch.getD 0)) := by
      rw [hchosen, List.get_eq_getElem]
      have hmap := List.getElem_map (fun d : DimensionInformation =>
        d.epoch.getD 0) (l := dimension_inputs)
        (n := (dimension_inputs.map (fun d => d.epoch.getD 0)).indexOf
          (listMin (dimension_inputs.map (fun d => d.epoch.getD 0))))
        (h := hidx)
      rw [← hmap]
      exact List.getElem_indexOf hidx
    constructor
    · rw [hchosen, List.get_eq_getElem]
      exact List.getElem_mem hidx'
    · intro d hd
      rw [hchosenEpoch]
      exact listMin_le _ _ (List.mem_map.mpr ⟨d, hd, rfl⟩)
  · exact List.Pairwise.sublist (List.dedup_sublist _)
      (List.sorted_insertionSort (· ≤ ·) _)
  · intro x
    rw [combined_input_values, np_unique, List.mem_dedup,
      List.mem_insertionSort, List.mem_flatten]
    constructor
    · rintro ⟨s, hs, hx⟩
      obtain ⟨d, hd, rfl⟩ := List.mem_map.mp hs
      exact ⟨d, hd, hx⟩
    · rintro ⟨d, hd, hx⟩
      exact ⟨d.get_values (some (chosen_units dimension_inputs)),
        List.mem_map.mpr ⟨d, hd, rfl⟩, hx⟩

/-- A temporal record in minutes with epoch one day (86400 s) after the
origin, used to exercise the aggregation on concrete data. -/
def exampleRecordMinutes : DimensionInformation :=
  ⟨some "minutes since 2021-01-02T00:30:00", some 60, some 86400, [0, 1]⟩

/-- A temporal record in seconds at the origin epoch. -/
def exampleRecordSeconds : DimensionInformation :=
  ⟨some "seconds since 2021-01-01T00:30:00", some 1, some 0, [30]⟩

/-- Witness for C4: of the two concrete records the seconds-based one has
the earlier epoch, and its units string is taken verbatim for the output. -/
theorem temporal_aggregation_witness :
    (_get_temporal_output_dimension
        [exampleRecordMinutes, exampleRecordSeconds]).units
      = some "seconds since 2021-01-01T00:30:00" := by
  have h := temporal_aggregation_earliest_epoch_union
    [exampleRecordMinutes, exampleRecordSeconds] (by decide)
  rw [h.2.1]
  decide

/-- C8: aggregation raises `MixedDimensionTypeError` iff some dimension
path has both a temporal and a non-temporal contributing record; the raised
error names a mixed path; when every path's records agree in kind no such
error is raised. -/
theorem aggregate_mixed_dimension_error
    (inputs : List (String × List DimensionInformation)) :
    (exceptIsOk (_aggregate_output_dimensions inputs) = false
      ↔ ∃ entry ∈ inputs, mixedRecords entry.2)
    ∧ (∀ e, _aggregate_output_dimensions inputs = Except.error e →
        ∃ records, (e, records) ∈ inputs ∧ mixedRecords records) := by
  induction inputs with
  | nil =>
    constructor
    · simp [_aggregate_output_dimensions, exceptIsOk]
    · intro e he
      simp [_aggregate_output_dimensions] at he
  | cons entry rest ih =>
    obtain ⟨name, recs⟩ := entry
    by_cases hall : recs.all (fun d => d.is_temporal) = true
    · have hnotmix : ¬ mixedRecords recs := by
        rintro ⟨_, d, hd, hdf⟩
        have := List.all_eq_true.mp hall d hd
        rw [hdf] at this
        cases this
      cases hrest : _aggregate_output_dimensions rest with
      | error e =>
        have hres : _aggregate_output_dimensions ((name, recs) :: rest)
            = Except.error e := by
          simp [_aggregate_output_dimensions, hall, hrest]
        constructor
        · rw [hres]
          constructor
          · intro _
            obtain ⟨entry2, h2, hmix⟩ :=
              (ih.1).mp (by rw [hrest]; rfl)
            exact ⟨entry2, List.mem_cons_of_mem _ h2, hmix⟩
          · intro _
            rfl
        · intro e' he'
          rw [hres] at he'
          cases he'
          obtain ⟨records, hr, hmix⟩ := ih.2 e hrest
          exact ⟨records, List.mem_cons_of_mem _ hr, hmix⟩
      | ok others =>
        have hres : _aggregate_output_dimensions ((name, recs) :: rest)
            = Except.ok ((name, _get_temporal_output_dimension recs)
                :: others) := by
          simp [_aggregate_output_dimensions, hall, hrest]
        constructor
        · rw [hres]
          simp only [exceptIsOk]
          constructor
          · intro hfalse
            cases hfalse
          · rintro ⟨entry2, h2, hmix⟩
            rcases List.mem_cons.mp h2 with rfl | h2r
            · exact absurd hmix hnotmix
            · have : exceptIsOk (_aggregate_output_dimensions rest)
                  = false := (ih.1).mpr ⟨entry2, h2r, hmix⟩
              rw [hrest] at this
              cases this
        · intro e' he'
          rw [hres] at he'
          cases he'
    · by_cases hany : recs.any (fun d => d.is_temporal) = true
      · have hres : _aggregate_output_dimensions ((name, recs) :: rest)
            = Except.error name := by
          simp [_aggregate_output_dimensions, hall, hany]
        have hmix : mixedRecords recs := by
          obtain ⟨d, hd, hdt⟩ := List.any_eq_true.mp hany
          obtain ⟨d2, hd2, hd2f⟩ :
              ∃ d2 ∈ recs, d2.is_temporal = false := by
            by_contra hno
            push_neg at hno
            apply hall
            apply List.all_eq_true.mpr
            intro d3 hd3
            cases hdt3 : d3.is_temporal with
            | true => rfl
            | false => exact absurd hdt3 (hno d3 hd3)
          exact ⟨⟨d, hd, hdt⟩, ⟨d2, hd2, hd2f⟩⟩
        constructor
        · rw [hres]
          constructor
          · intro _
            exact ⟨(name, recs), List.mem_cons_self _ _, hmix⟩
          · intro _
            rfl
        · intro e' he'
          rw [hres] at he'
          cases he'
          exact ⟨recs, List.mem_cons_self _ _, hmix⟩
      · have hnotmix : ¬ mixedRecords recs := by
          rintro ⟨⟨d, hd, hdt⟩, _⟩
          have hrecs : recs.any (fun d => d.is_temporal) = true :=
            List.any_eq_true.mpr ⟨d, hd, hdt⟩
          exact hany hrecs
        have hres : _aggregate_output_dimensions ((name, recs) :: rest)
            = _aggregate_output_dimensions rest := by
          simp [_aggregate_output_dimensions, hall, hany]
        constructor
        · rw [hres]
          constructor
          · intro h
            obtain ⟨entry2, h2, hmix⟩ := (ih.1).mp h
            exact ⟨entry2, List.mem_cons_of_mem _ h2, hmix⟩
          · rintro ⟨entry2, h2, hmix⟩
            rcases List.mem_cons.mp h2 with rfl | h2r
            · exact absurd hmix hnotmix
            · exact (ih.1).mpr ⟨entry2, h2r, hmix⟩
        · intro e' he'
          rw [hres] at he'
          obtain ⟨records, hr, hmix⟩ := ih.2 e' he'
          exact ⟨records, List.mem_cons_of_mem _ hr, hmix⟩

/-- A non-temporal record (plain spatial units). -/
def exampleRecordSpatial : DimensionInformation :=
  ⟨some "degrees_east", none, none, [0, 1, 2]⟩

/-- Witness for C8: with a homogeneous temporal path and a mixed path, the
aggregation errors and the named path is mixed. -/
theorem aggregate_mixed_witness :
    ∃ records,
      ("/lat", records)
        ∈ [("/time", [exampleRecordSeconds]),
           ("/lat", [exampleRecordSpatial, exampleRecordMinutes])]
      ∧ mixedRecords records :=
  (aggregate_mixed_dimension_error
      [("/time", [exampleRecordSeconds]),
       ("/lat", [exampleRecordSpatial, exampleRecordMinutes])]).2
    "/lat" (by decide)

/-! ## Slice placement (`convert.__insert_data_slice`)

For a temporally aggregated dimension, `__insert_data_slice` locates the
output indices whose dimension values occur among the granule's converted
values (`np.where(np.in1d(output_values, input_values))[0]`) and writes the
granule's data into `slice(indices.min(), indices.max() + 1)`. -/

/-- The matching output indices of one granule. -/
def matching_indices (output_values input_values : List ℚ) : List ℕ :=
  (List.range output_values.length).filter
    (fun i => decide (output_values.getD i 0 ∈ input_values))

/-- C2 counterexample: two granules with epoch-normalized values `{0, 3}`
and `{1}`.  The union grid is `[0, 1, 2, 3]` (resolution 1), and the first
granule's matching indices are `{0, 3}` — not a contiguous range: index 1
matches nothing of that granule, and the slice `0 .. 3+1` has four slots
for the granule's two samples. -/
theorem insert_slice_indices_counterexample :
    np_unique ([0, 3] ++ [1] : List ℚ) = [0, 1, 3]
    ∧ get_grid_values [0, 1, 3] (get_resolution [0, 1, 3]) = [0, 1, 2, 3]
    ∧ matching_indices
        (get_grid_values [0, 1, 3] (get_resolution [0, 1, 3])) [0, 3]
      = [0, 3]
    ∧ (1 : ℕ) ∉ matching_indices
        (get_grid_values [0, 1, 3] (get_resolution [0, 1, 3])) [0, 3]
    ∧ listMax (matching_indices
          (get_grid_values [0, 1, 3] (get_resolution [0, 1, 3])) [0, 3]) + 1
        - listMin (matching_indices
          (get_grid_values [0, 1, 3] (get_resolution [0, 1, 3])) [0, 3]) = 4
    ∧ ([0, 3] : List ℚ).length = 2 := by
  refine ⟨by decide, by decide, by decide, by decide, by decide, by decide⟩

theorem listMin_map_num (l : List ℚ) (hne : l ≠ [])
    (hInt : ∀ v ∈ l, v.den = 1) :
    listMin (l.map (fun v => v.num)) = (listMin l).num := by
  have hmne : l.map (fun v => v.num) ≠ [] := by
    intro h
    exact hne (List.map_eq_nil_iff.mp h)
  apply le_antisymm
  · exact listMin_le _ _
      (List.mem_map.mpr ⟨listMin l, listMin_mem l hne, rfl⟩)
  · obtain ⟨x, hx, hxe⟩ := List.mem_map.mp (listMin_mem _ hmne)
    rw [← hxe]
    have hdx : ((x.num : ℤ) : ℚ) = x :=
      (Rat.den_eq_one_iff x).mp (hInt x hx)
    have hdm : (((listMin l).num : ℤ) : ℚ) = listMin l :=
      (Rat.den_eq_one_iff _).mp (hInt _ (listMin_mem l hne))
    have hle : (((listMin l).num : ℤ) : ℚ) ≤ ((x.num : ℤ) : ℚ) := by
      rw [hdm, hdx]
      exact listMin_le l x hx
    exact_mod_cast hle

theorem listMax_map_num (l : List ℚ) (hne : l ≠ [])
    (hInt : ∀ v ∈ l, v.den = 1) :
    listMax (l.map (fun v => v.num)) = (listMax l).num := by
  have hmne : l.map (fun v => v.num) ≠ [] := by
    intro h
    exact hne (List.map_eq_nil_iff.mp h)
  apply le_antisymm
  · obtain ⟨x, hx, hxe⟩ := List.mem_map.mp (listMax_mem _ hmne)
    rw [← hxe]
    have hdx : ((x.num : ℤ) : ℚ) = x :=
      (Rat.den_eq_one_iff x).mp (hInt x hx)
    have hdm : (((listMax l).num : ℤ) : ℚ) = listMax l :=
      (Rat.den_eq_one_iff _).mp (hInt _ (listMax_mem l hne))
    have hle : ((x.num : ℤ) : ℚ) ≤ (((listMax l).num : ℤ) : ℚ) := by
      rw [hdm, hdx]
      exact le_listMax l x hx
    exact_mod_cast hle
  · exact le_listMax _ _
      (List.mem_map.mpr ⟨listMax l, listMax_mem l hne, rfl⟩)

theorem gcdReduce_dvd (l : List ℤ) : ∀ d ∈ l, (gcdReduce l : ℤ) ∣ d := by
  induction l with
  | nil =>
    intro d hd
    cases hd
  | cons x xs ih =>
    intro d hd
    rcases List.mem_cons.mp hd with rfl | hdx
    · have h1 : Nat.gcd d.natAbs (gcdReduce xs) ∣ d.natAbs :=
        Nat.gcd_dvd_left _ _
      exact Int.dvd_natAbs.mp (Int.natCast_dvd_natCast.mpr h1)
    · have h2 : Nat.gcd x.natAbs (gcdReduce xs) ∣ gcdReduce xs :=
        Nat.gcd_dvd_right _ _
      exact dvd_trans (Int.natCast_dvd_natCast.mpr h2) (ih d hdx)

theorem gcdReduce_eq_zero (l : List ℤ) (h : gcdReduce l = 0) :
    ∀ d ∈ l, d = 0 := by
  induction l with
  | nil =>
    intro d hd
    cases hd
  | cons x xs ih =>
    intro d hd
    have hx : Nat.gcd x.natAbs (gcdReduce xs) = 0 := h
    rcases List.mem_cons.mp hd with rfl | hdx
    · exact Int.natAbs_eq_zero.mp (Nat.gcd_eq_zero_iff.mp hx).1
    · exact ih (Nat.gcd_eq_zero_iff.mp hx).2 d hdx

theorem get_resolution_integral (l : List ℚ) (hInt : ∀ v ∈ l, v.den = 1) :
    get_resolution l
      = ((gcdReduce (nonZeroDiffs (l.map (fun v => v.num))) : ℕ) : ℚ) := by
  rw [get_resolution, scale_to_integers_integral l hInt]
  norm_num

theorem dvd_sub_min (l : List ℚ) (hne : l ≠ [])
    (hInt : ∀ v ∈ l, v.den = 1) (v : ℚ) (hv : v ∈ l) :
    ((gcdReduce (nonZeroDiffs (l.map (fun x => x.num))) : ℕ) : ℤ)
      ∣ (v.num - (listMin l).num) := by
  by_cases h0 : v.num - (listMin l).num = 0
  · rw [h0]
    exact dvd_zero _
  · apply gcdReduce_dvd
    rw [nonZeroDiffs, listMin_map_num l hne hInt]
    refine List.mem_filter.mpr ⟨?_, by simpa using h0⟩
    exact List.mem_map.mpr ⟨v.num, List.mem_map.mpr ⟨v, hv, rfl⟩, rfl⟩

theorem nodup_const_singleton (F : List ℚ) (c : ℚ) (hne : F ≠ [])
    (hconst : ∀ x ∈ F, x = c) (hnodup : F.Nodup) : F = [c] := by
  cases F with
  | nil => exact absurd rfl hne
  | cons x xs =>
    have hx : x = c := hconst x (List.mem_cons_self _ _)
    cases xs with
    | nil => rw [hx]
    | cons y ys =>
      have hy : y = c := hconst y (by simp)
      exfalso
      have hxmem : x ∈ y :: ys := by
        rw [hx, ← hy]
        exact List.mem_cons_self _ _
      exact (List.nodup_cons.mp hnodup).1 hxmem

theorem mem_range'_iff (s n m : ℕ) :
    m ∈ List.range' s n ↔ s ≤ m ∧ m < s + n := by
  rw [List.mem_range']
  constructor
  · rintro ⟨i, hi, rfl⟩
    omega
  · intro h
    exact ⟨m - s, by omega, by omega⟩

/-- Structure of the output grid over an integral-valued input with at
least two distinct values: the resolution is a positive integer `g`, the
maximum is `K` steps of `g` above the minimum, every input value lies on a
grid step, and the grid is exactly the `K + 1` evenly spaced points. -/
theorem get_grid_values_integral (l : List ℚ) (hne : l ≠ [])
    (hInt : ∀ v ∈ l, v.den = 1) (hmM : listMin l ≠ listMax l) :
    ∃ g K : ℕ, 0 < g ∧ 0 < K
    ∧ get_resolution l = (g : ℚ)
    ∧ listMax l = listMin l + (K : ℚ) * (g : ℚ)
    ∧ (∀ v ∈ l, ∃ j : ℕ, j ≤ K ∧ v = listMin l + (j : ℚ) * (g : ℚ))
    ∧ get_grid_values l (get_resolution l)
        = (List.range (K + 1)).map
            (fun i : ℕ => listMin l + (i : ℚ) * (g : ℚ)) := by
  have hminmem := listMin_mem l hne
  have hmaxmem := listMax_mem l hne
  have hmden : (listMin l).den = 1 := hInt _ hminmem
  have hMden : (listMax l).den = 1 := hInt _ hmaxmem
  have hmcast : (((listMin l).num : ℤ) : ℚ) = listMin l :=
    (Rat.den_eq_one_iff _).mp hmden
  have hMcast : (((listMax l).num : ℤ) : ℚ) = listMax l :=
    (Rat.den_eq_one_iff _).mp hMden
  set g : ℕ := gcdReduce (nonZeroDiffs (l.map (fun v => v.num))) with hg
  have hres : get_resolution l = (g : ℚ) := get_resolution_integral l hInt
  have hmltM : listMin l < listMax l :=
    lt_of_le_of_ne (listMin_le l _ hmaxmem) hmM
  have hnumlt : (listMin l).num < (listMax l).num := by
    have : (((listMin l).num : ℤ) : ℚ) < (((listMax l).num : ℤ) : ℚ) := by
      rw [hmcast, hMcast]
      exact hmltM
    exact_mod_cast this
  have hdiffM : (listMax l).num - (listMin l).num ≠ 0 := by omega
  have hgpos : 0 < g := by
    rcases Nat.eq_zero_or_pos g with h0 | hpos
    · exfalso
      apply hdiffM
      apply gcdReduce_eq_zero _ h0
      rw [nonZeroDiffs, listMin_map_num l hne hInt]
      refine List.mem_filter.mpr ⟨?_, by simpa using hdiffM⟩
      exact List.mem_map.mpr
        ⟨(listMax l).num, List.mem_map.mpr ⟨listMax l, hmaxmem, rfl⟩, rfl⟩
    · exact hpos
  have hgQ : (0 : ℚ) < (g : ℚ) := by exact_mod_cast hgpos
  obtain ⟨t, ht⟩ := dvd_sub_min l hne hInt (listMax l) hmaxmem
  rw [← hg] at ht
  have htpos : 0 < t := by
    rcases le_or_lt t 0 with hle | hlt
    · exfalso
      have h1 : (g : ℤ) * t ≤ 0 :=
        mul_nonpos_of_nonneg_of_nonpos (by positivity) hle
      omega
    · exact hlt
  set K : ℕ := t.toNat with hK
  have hKt : (K : ℤ) = t := Int.toNat_of_nonneg (le_of_lt htpos)
  have hKpos : 0 < K := by omega
  have hMK : listMax l = listMin l + (K : ℚ) * (g : ℚ) := by
    have hcast : ((((listMax l).num - (listMin l).num : ℤ)) : ℚ)
        = (((g : ℤ) * t : ℤ) : ℚ) := by
      exact_mod_cast congrArg (fun z : ℤ => (z : ℚ)) ht
    push_cast at hcast
    rw [hmcast, hMcast] at hcast
    have hKQ : ((K : ℕ) : ℚ) = ((t : ℤ) : ℚ) := by
      exact_mod_cast congrArg (fun z : ℤ => (z : ℚ)) hKt
    rw [← hKQ] at hcast
    linarith
  refine ⟨g, K, hgpos, hKpos, hres, hMK, ?_, ?_⟩
  · intro v hv
    obtain ⟨s, hs⟩ := dvd_sub_min l hne hInt v hv
    have hvden : ((v.num : ℤ) : ℚ) = v :=
      (Rat.den_eq_one_iff v).mp (hInt v hv)
    have hsnonneg : 0 ≤ s := by
      have hge : (listMin l).num ≤ v.num := by
        have : (((listMin l).num : ℤ) : ℚ) ≤ ((v.num : ℤ) : ℚ) := by
          rw [hmcast, hvden]
          exact listMin_le l v hv
        exact_mod_cast this
      nlinarith [hs]
    have hsle : s ≤ t := by
      have hle : v.num ≤ (listMax l).num := by
        have : ((v.num : ℤ) : ℚ) ≤ (((listMax l).num : ℤ) : ℚ) := by
          rw [hMcast, hvden]
          exact le_listMax l v hv
        exact_mod_cast this
      nlinarith [hs, ht]
    refine ⟨s.toNat, ?_, ?_⟩
    · omega
    · have hcast : ((v.num - (listMin l).num : ℤ) : ℚ)
          = (((g : ℤ) * s : ℤ) : ℚ) :=
        congrArg (fun z : ℤ => (z : ℚ)) hs
      push_cast at hcast
      rw [hmcast, hvden] at hcast
      have hsQ : ((s.toNat : ℕ) : ℚ) = ((s : ℤ) : ℚ) := by
        have : ((s.toNat : ℕ) : ℤ) = s := Int.toNat_of_nonneg hsnonneg
        exact_mod_cast congrArg (fun z : ℤ => (z : ℚ)) this
      rw [hsQ]
      linarith
  · have hk0 : (scale_to_integers l).2 = 0 := by
      rw [scale_to_integers_integral l hInt]
    have hn : n_grid_points l (get_resolution l) = K + 1 := by
      rw [n_grid_points, if_pos hmM, hres, hMK]
      have hdivK : (listMin l + (K : ℚ) * (g : ℚ) - listMin l) / (g : ℚ)
          = (K : ℚ) := by
        rw [add_sub_cancel_left]
        exact mul_div_cancel_right₀ _ (ne_of_gt hgQ)
      rw [hdivK, round_natCast, Int.toNat_natCast]
    have hstep : (listMax l - listMin l) / ((K : ℕ) : ℚ) = (g : ℚ) := by
      rw [hMK, add_sub_cancel_left]
      have hKQ0 : ((K : ℕ) : ℚ) ≠ 0 := by
        exact_mod_cast Nat.pos_iff_ne_zero.mp hKpos
      rw [mul_comm]
      exact mul_div_cancel_right₀ _ hKQ0
    have hlin : linspace (listMin l) (listMax l) (K + 1)
        = (List.range (K + 1)).map
            (fun i : ℕ => listMin l + (i : ℚ) * (g : ℚ)) := by
      rw [linspace, Nat.add_sub_cancel, hstep]
    rw [get_grid_values, hk0, hn, hlin, List.map_map]
    refine List.map_congr_left ?_
    intro i hi
    show np_around (listMin l + (i : ℚ) * (g : ℚ)) 0
        = listMin l + (i : ℚ) * (g : ℚ)
    apply np_around_den_one
    have hrepr : listMin l + (i : ℚ) * (g : ℚ)
        = (((listMin l).num + (i * g : ℕ) : ℤ) : ℚ) := by
      push_cast
      rw [hmcast]
    rw [hrepr]
    exact Rat.den_intCast _

/-- The values of the aggregated output dimension built from the union of
the epoch-normalized input values (`_get_output_dimension`). -/
def output_grid (union_values : List ℚ) : List ℚ :=
  get_grid_values union_values (get_resolution union_values)

/-- C2 (amended): the matching index set of a granule is contiguous — and
the slice `min .. max + 1` addresses exactly the granule's samples — under
the additional hypothesis that the granule has no internal gap at the
output resolution (every grid value between the granule's minimum and
maximum belongs to the granule); the claim as stated, without that
hypothesis, fails (`insert_slice_indices_counterexample`).  Values are
integral (the scale factor is one); the granule's values are distinct, as
dimension values are strictly monotonic. -/
theorem insert_slice_contiguous_of_gap_free
    (union_values input_values : List ℚ)
    (hne : union_values ≠ [])
    (hInt : ∀ x ∈ union_values, x.den = 1)
    (hFne : input_values ≠ [])
    (hFnodup : input_values.Nodup)
    (hFsub : ∀ x ∈ input_values, x ∈ union_values)
    (hgapfree : ∀ w ∈ output_grid union_values,
        listMin input_values ≤ w → w ≤ listMax input_values →
          w ∈ input_values) :
    matching_indices (output_grid union_values) input_values ≠ []
    ∧ (∀ j, j ∈ matching_indices (output_grid union_values) input_values
        ↔ (listMin (matching_indices (output_grid union_values)
              input_values) ≤ j
            ∧ j ≤ listMax (matching_indices (output_grid union_values)
              input_values)))
    ∧ listMax (matching_indices (output_grid union_values) input_values)
        + 1
        - listMin (matching_indices (output_grid union_values) input_values)
      = input_values.length := by
  by_cases hmM : listMin union_values = listMax union_values
  · -- Degenerate grid: all union values are equal, so the granule is the
    -- single point and its matching index list is [0].
    have hconst : ∀ x ∈ union_values, x = listMin union_values := by
      intro x hx
      have hx2 : x ≤ listMin union_values := by
        rw [hmM]
        exact le_listMax _ _ hx
      exact le_antisymm hx2 (listMin_le _ _ hx)
    have hden : (listMin union_values).den = 1 :=
      hInt _ (listMin_mem _ hne)
    have hgridc : output_grid union_values = [listMin union_values] :=
      (get_grid_values_const union_values (listMin union_values) hne
        hconst hden _).2
    have hFc : input_values = [listMin union_values] := by
      refine nodup_const_singleton input_values (listMin union_values)
        hFne ?_ hFnodup
      intro x hx
      exact hconst x (hFsub x hx)
    have hidx0 : ∀ c : ℚ, matching_indices [c] [c] = [0] := by
      intro c
      simp [matching_indices, List.range_succ]
    have hidx : matching_indices (output_grid union_values) input_values
        = [0] := by
      rw [hgridc, hFc]
      exact hidx0 _
    rw [hidx, hFc]
    refine ⟨by decide, ?_, rfl⟩
    intro j
    show j ∈ [0] ↔ listMin [0] ≤ j ∧ j ≤ listMax [0]
    simp only [List.mem_singleton]
    constructor
    · rintro rfl
      exact ⟨le_refl _, le_refl _⟩
    · rintro ⟨h1, h2⟩
      have hmin0 : listMin [(0 : ℕ)] = 0 := rfl
      have hmax0 : listMax [(0 : ℕ)] = 0 := rfl
      rw [hmin0] at h1
      rw [hmax0] at h2
      omega
  · obtain ⟨g, K, hgpos, hKpos, hres, hMK, hongrid, hgrid⟩ :=
      get_grid_values_integral union_values hne hInt hmM
    have hgQ : (0 : ℚ) < (g : ℚ) := by exact_mod_cast hgpos
    set m := listMin union_values with hm
    have hf_le : ∀ i j : ℕ,
        m + (i : ℚ) * (g : ℚ) ≤ m + (j : ℚ) * (g : ℚ) ↔ i ≤ j := by
      intro i j
      rw [add_le_add_iff_left, mul_le_mul_right hgQ]
      exact_mod_cast Iff.rfl
    have hf_inj : Function.Injective
        (fun i : ℕ => m + (i : ℚ) * (g : ℚ)) := by
      intro i j hij
      have h1 : m + (i : ℚ) * (g : ℚ) ≤ m + (j : ℚ) * (g : ℚ) := le_of_eq hij
      have h2 : m + (j : ℚ) * (g : ℚ) ≤ m + (i : ℚ) * (g : ℚ) :=
        le_of_eq hij.symm
      exact le_antisymm ((hf_le i j).mp h1) ((hf_le j i).mp h2)
    have hgridlen : (output_grid union_values).length = K + 1 := by
      rw [output_grid, hgrid]
      simp
    have hgridget : ∀ j, j < K + 1 →
        (output_grid union_values).getD j 0 = m + (j : ℚ) * (g : ℚ) := by
      intro j hj
      have hj' : j < (output_grid union_values).length := by
        rw [hgridlen]
        exact hj
      rw [List.getD_eq_getElem _ _ hj']
      have hjr : j < (List.range (K + 1)).length := by simpa using hj
      simp only [output_grid, hgrid, List.getElem_map, List.getElem_range]
    have hgridmem : ∀ j, j < K + 1 →
        m + (j : ℚ) * (g : ℚ) ∈ output_grid union_values := by
      intro j hj
      rw [output_grid, hgrid]
      exact List.mem_map.mpr ⟨j, by simpa using hj, rfl⟩
    have hmemidx : ∀ j,
        j ∈ matching_indices (output_grid union_values) input_values
          ↔ j < K + 1 ∧ m + (j : ℚ) * (g : ℚ) ∈ input_values := by
      intro j
      rw [matching_indices, List.mem_filter, List.mem_range, hgridlen]
      constructor
      · rintro ⟨hj, hmem⟩
        rw [hgridget j hj] at hmem
        exact ⟨hj, of_decide_eq_true hmem⟩
      · rintro ⟨hj, hmem⟩
        refine ⟨hj, decide_eq_true ?_⟩
        rw [hgridget j hj]
        exact hmem
    obtain ⟨i0, hi0K, hai0⟩ :=
      hongrid (listMin input_values)
        (hFsub _ (listMin_mem input_values hFne))
    obtain ⟨i1, hi1K, hbi1⟩ :=
      hongrid (listMax input_values)
        (hFsub _ (listMax_mem input_values hFne))
    have hab : listMin input_values ≤ listMax input_values :=
      listMin_le input_values _ (listMax_mem input_values hFne)
    have hi01 : i0 ≤ i1 := by
      apply (hf_le i0 i1).mp
      rw [← hai0, ← hbi1]
      exact hab
    have hiff : ∀ j,
        j ∈ matching_indices (output_grid union_values) input_values
          ↔ (i0 ≤ j ∧ j ≤ i1) := by
      intro j
      rw [hmemidx j]
      constructor
      · rintro ⟨hj, hmem⟩
        constructor
        · apply (hf_le i0 j).mp
          rw [← hai0]
          exact listMin_le input_values _ hmem
        · apply (hf_le j i1).mp
          rw [← hbi1]
          exact le_listMax input_values _ hmem
      · rintro ⟨h0, h1⟩
        have hj : j < K + 1 := by omega
        refine ⟨hj, ?_⟩
        apply hgapfree _ (hgridmem j hj)
        · rw [hai0]
          exact (hf_le i0 j).mpr h0
        · rw [hbi1]
          exact (hf_le j i1).mpr h1
    have hi0mem : i0 ∈ matching_indices (output_grid union_values)
        input_values := (hiff i0).mpr ⟨le_refl _, hi01⟩
    have hi1mem : i1 ∈ matching_indices (output_grid union_values)
        input_values := (hiff i1).mpr ⟨hi01, le_refl _⟩
    have hidxne :
        matching_indices (output_grid union_values) input_values ≠ [] :=
      List.ne_nil_of_mem hi0mem
    have hminidx : listMin
        (matching_indices (output_grid union_values) input_values) = i0 := by
      apply le_antisymm (listMin_le _ _ hi0mem)
      exact ((hiff _).mp (listMin_mem _ hidxne)).1
    have hmaxidx : listMax
        (matching_indices (output_grid union_values) input_values) = i1 := by
      apply le_antisymm
      · exact ((hiff _).mp (listMax_mem _ hidxne)).2
      · exact le_listMax _ _ hi1mem
    refine ⟨hidxne, ?_, ?_⟩
    · intro j
      rw [hminidx, hmaxidx]
      exact hiff j
    · rw [hminidx, hmaxidx]
      have hnodupT : ((List.range' i0 (i1 + 1 - i0)).map
          (fun i : ℕ => m + (i : ℚ) * (g : ℚ))).Nodup :=
        List.Nodup.map hf_inj (List.nodup_range' i0 (i1 + 1 - i0))
      have hmemT : ∀ x, x ∈ input_values
          ↔ x ∈ (List.range' i0 (i1 + 1 - i0)).map
              (fun i : ℕ => m + (i : ℚ) * (g : ℚ)) := by
        intro x
        constructor
        · intro hx
          obtain ⟨jx, hjxK, hjx⟩ := hongrid x (hFsub x hx)
          have hj0 : i0 ≤ jx := by
            apply (hf_le i0 jx).mp
            rw [← hai0, ← hjx]
            exact listMin_le input_values x hx
          have hj1 : jx ≤ i1 := by
            apply (hf_le jx i1).mp
            rw [← hbi1, ← hjx]
            exact le_listMax input_values x hx
          refine List.mem_map.mpr ⟨jx, ?_, hjx.symm⟩
          rw [mem_range'_iff]
          omega
        · intro hx
          obtain ⟨jx, hjxm, rfl⟩ := List.mem_map.mp hx
          rw [mem_range'_iff] at hjxm
          have hjK : jx < K + 1 := by omega
          apply hgapfree _ (hgridmem jx hjK)
          · rw [hai0]
            exact (hf_le i0 jx).mpr hjxm.1
          · rw [hbi1]
            exact (hf_le jx i1).mpr (by omega)
      have hperm := (List.perm_ext_iff_of_nodup hFnodup hnodupT).mpr hmemT
      have hlenT : input_values.length = i1 + 1 - i0 := by
        rw [hperm.length_eq, List.length_map]
        simp
      omega

/-- Witness for C2 (amended): union `{0, 1, 2}`, granule `{1, 2}` — the
matching indices `[1, 2]` are a contiguous range whose slice holds exactly
the granule's two samples. -/
theorem insert_slice_contiguous_witness :
    matching_indices (output_grid [0, 1, 2]) [1, 2] ≠ []
    ∧ (∀ j, j ∈ matching_indices (output_grid [0, 1, 2]) [1, 2]
        ↔ (listMin (matching_indices (output_grid [0, 1, 2]) [1, 2]) ≤ j
            ∧ j ≤ listMax (matching_indices (output_grid [0, 1, 2]) [1, 2])))
    ∧ listMax (matching_indices (output_grid [0, 1, 2]) [1, 2]) + 1
        - listMin (matching_indices (output_grid [0, 1, 2]) [1, 2])
      = ([1, 2] : List ℚ).length :=
  insert_slice_contiguous_of_gap_free [0, 1, 2] [1, 2]
    (by decide) (by decide) (by decide) (by decide) (by decide) (by decide)

end NetCDFToZarr
